import Mathlib

/-!
Shallow embedding of the MST engine from `src/cpp/Graph.{h,cpp}`.

Modelling conventions:
* C++ `int` is modelled as `Int` (the spec declares no overflow guard is
  required; arithmetic is idealized).
* `std::vector<int>` fields `parent`/`rnk` are modelled as `List Nat`
  (indices and ranks are non-negative in every valid execution; reads are
  `List.getD`, writes are `List.set`; an out-of-bounds access is undefined
  behaviour in the C++ source and the corresponding `getD` default /
  `set` no-op is never reached under the validity hypotheses used below).
* `std::map<string,int> vertices` is modelled as an association list with
  first-wins insertion (`std::map::emplace` does not overwrite an existing
  key).  The map is only ever iterated in `make_set`, whose writes are
  order-independent, and queried by key, so the iteration order of the
  C++ ordered map is not observable.
* The recursive `find_set` of the source is modelled with an explicit
  fuel parameter; the engine always calls it with fuel `parent.length`,
  which is proved sufficient under the well-formedness invariant.
* `std::ostringstream` accumulation is modelled by building the same
  `String`; the C++ `first`-comma logic is `String.intercalate ","`.
-/

namespace GraphMST

/-- The `edge` struct from `Graph.h`. -/
structure Edge where
  id : String
  weight : Int
  src : String
  dst : String
deriving DecidableEq, Repr, Inhabited

/-- One trace step of `mst_steps_json` (the JSON object documented in the
comment above `Graph::mst_steps_json`). -/
structure Step where
  consideredEdgeId : String
  action : String
  reason : String
  totalWeight : Int
  mstEdgeIds : List String
  rejectedEdgeIds : List String
deriving DecidableEq, Repr, Inhabited

/-- The `Graph` class state (`Graph.h`). -/
structure Graph where
  numVertices : Int
  numEdges : Int
  parent : List Nat
  rnk : List Nat
  vertices : List (String × Int)
  edges : List Edge
deriving DecidableEq, Repr, Inhabited

/-- `Graph::Graph(int v, int e)`: the constructor only stores the counts. -/
def Graph.new (v e : Int) : Graph :=
  { numVertices := v, numEdges := e, parent := [], rnk := [], vertices := [], edges := [] }

/-- `Graph::mergeEdges` with an explicit fuel bound (a termination artifact
only; `mergeEdges` below supplies enough fuel for it never to run out):
merge two sorted runs; note the strict `<` in the source, so on equal
weights the second (right) list's head is taken. -/
def mergeF : Nat → List Edge → List Edge → List Edge
  | 0, _, _ => []
  | _ + 1, [], v2 => v2
  | _ + 1, v1, [] => v1
  | f + 1, e1 :: t1, e2 :: t2 =>
      if e1.weight < e2.weight then e1 :: mergeF f t1 (e2 :: t2)
      else e2 :: mergeF f (e1 :: t1) t2

/-- `Graph::mergeEdges`: the two-pointer merge loop of the source. -/
def mergeEdges (v1 v2 : List Edge) : List Edge :=
  mergeF (v1.length + v2.length) v1 v2

/-- `Graph::sortEdges(v, low, hi)` with an explicit fuel bound (a
termination artifact only; `sortEdges` below supplies enough fuel):
top-down merge sort of the index range `[low, hi]` of `v`.  The source
requires `low ≤ hi` (guaranteed by `Graph::sort`); the `hi < low` branch
is unreachable and returns `[]`. -/
def sortF : Nat → List Edge → Nat → Nat → List Edge
  | 0, _, _, _ => []
  | f + 1, v, low, hi =>
      if low = hi then [v.getD low default]
      else if hi < low then []
      else
        mergeEdges (sortF f v low ((low + hi) / 2)) (sortF f v ((low + hi) / 2 + 1) hi)

/-- `Graph::sortEdges(v, low, hi)`: top-down merge sort of `v[low..hi]`. -/
def sortEdges (v : List Edge) (low hi : Nat) : List Edge :=
  sortF (hi + 1 - low) v low hi

/-- The inclusive subrange `v[low..hi]` that `sortEdges(v, low, hi)` sorts
(specification helper used to state the sort lemmas). -/
def extract (v : List Edge) (low hi : Nat) : List Edge :=
  (v.drop low).take (hi + 1 - low)

/-- The edge-list level of `Graph::sort(void)`: no-op on an empty list,
otherwise `sortEdges` over the whole index range. -/
def sortList (l : List Edge) : List Edge :=
  if l.isEmpty then l else sortEdges l 0 (l.length - 1)

/-- `Graph::sort(void)`: replaces `edges` by the sorted list. -/
def sort (g : Graph) : Graph := { g with edges := sortList g.edges }

/-- One parent-pointer lookup `parent[i]` (reads of the `parent` vector). -/
def pstep (p : List Nat) (i : Nat) : Nat := p.getD i i

/-- `parent[i] == i`: `i` is a set representative. -/
def isRoot (p : List Nat) (i : Nat) : Prop := pstep p i = i

instance (p : List Nat) (i : Nat) : Decidable (isRoot p i) :=
  inferInstanceAs (Decidable (pstep p i = i))

/-- `Graph::find_set` with path compression
(`return parent[a] = find_set(parent[a]);`), with explicit fuel; the
engine calls it with fuel `parent.length`, proved sufficient below. -/
def find_set (fuel : Nat) (p : List Nat) (a : Nat) : List Nat × Nat :=
  match fuel with
  | 0 => (p, a)
  | fuel + 1 =>
      if pstep p a = a then (p, a)
      else
        let r := find_set fuel p (pstep p a)
        (r.1.set a r.2, r.2)

/-- `Graph::union_set`: find both roots (with compression), return `false`
if equal; otherwise swap so that `a2` has the larger rank, attach `b2`
under `a2`, and bump the surviving root's rank on a tie. -/
def union_set (g : Graph) (a b : Nat) : Graph × Bool :=
  let fa := find_set g.parent.length g.parent a
  let fb := find_set fa.1.length fa.1 b
  let ra := fa.2
  let rb := fb.2
  if ra = rb then ({ g with parent := fb.1 }, false)
  else
    let a2 := if g.rnk.getD ra 0 < g.rnk.getD rb 0 then rb else ra
    let b2 := if g.rnk.getD ra 0 < g.rnk.getD rb 0 then ra else rb
    let p2 := fb.1.set b2 a2
    let r2 := if g.rnk.getD a2 0 = g.rnk.getD b2 0 then g.rnk.set a2 (g.rnk.getD a2 0 + 1)
              else g.rnk
    ({ g with parent := p2, rnk := r2 }, true)

/-- `std::vector::resize(n)`: keep the first `n` entries, value-initialize
(to `0`) any newly created entries. -/
def resize (l : List Nat) (n : Nat) : List Nat := l.take n ++ List.replicate (n - l.length) 0

/-- `Graph::make_set`: resize `parent`/`rnk` to `numVertices` and set
`parent[v] = v`, `rnk[v] = 0` for every registered vertex index `v`. -/
def make_set (g : Graph) : Graph :=
  let n := g.numVertices.toNat
  let pr := g.vertices.foldl
      (fun pr kv => (pr.1.set kv.2.toNat kv.2.toNat, pr.2.set kv.2.toNat 0))
      (resize g.parent n, resize g.rnk n)
  { g with parent := pr.1, rnk := pr.2 }

/-- `Graph::addVertex`: `vertices.emplace(name, idx)` — `std::map::emplace`
inserts only if the key is not already present (no overwrite). -/
def addVertex (g : Graph) (vertexName : String) (vertexIndex : Int) : Graph :=
  if (g.vertices.find? (fun kv => kv.1 == vertexName)).isSome then g
  else { g with vertices := g.vertices ++ [(vertexName, vertexIndex)] }

/-- `Graph::getIndex`: map lookup, `-1` when the name is not registered. -/
def getIndex (g : Graph) (vertexName : String) : Int :=
  match g.vertices.find? (fun kv => kv.1 == vertexName) with
  | some kv => kv.2
  | none => -1

/-- `Graph::addEdge`: append an edge (no validation). -/
def addEdge (g : Graph) (edgeId : String) (weight : Int) (src dst : String) : Graph :=
  { g with edges := g.edges ++ [⟨edgeId, weight, src, dst⟩] }

/-- The edge loop of `Graph::mst`: `if (a >= 0 && b >= 0 && union_set(a, b))`
accept the edge and add its weight (`&&` short-circuits, so `union_set` is
only invoked when both indices resolved). -/
def mstLoop (g : Graph) (es : List Edge) (cost : Int) : Graph × List Edge × Int :=
  match es with
  | [] => (g, [], cost)
  | e :: rest =>
      let a := getIndex g e.src
      let b := getIndex g e.dst
      let u := if 0 ≤ a ∧ 0 ≤ b then union_set g a.toNat b.toNat else (g, false)
      let t := mstLoop u.1 rest (if u.2 then cost + e.weight else cost)
      (t.1, if u.2 then e :: t.2.1 else t.2.1, t.2.2)

/-- `Graph::mst(int &cost)`: sort, re-initialize the disjoint set, run the
loop.  Returns (mutated engine state, accepted edges, cost). -/
def mst (g : Graph) : Graph × List Edge × Int :=
  let g1 := make_set (sort g)
  mstLoop g1 g1.edges 0

/-- One iteration of the `switch` in `Graph::json_escape`, appending to the
output stream `o`. -/
def escNext (o : String) (c : Char) : String :=
  if c = '"' then o ++ "\\\""
  else if c = '\\' then o ++ "\\\\"
  else if c = '\n' then o ++ "\\n"
  else if c = '\r' then o ++ "\\r"
  else if c = '\t' then o ++ "\\t"
  else o.push c

/-- `Graph::json_escape`: the `switch` over characters, accumulating into
an output stream. -/
def json_escape (s : String) : String :=
  s.toList.foldl escNext ""

/-- The per-character escaping contract stated by the spec (§6): the five
special characters map to their two-character sequences, everything else
is unchanged. -/
def escapeSpec (c : Char) : List Char :=
  if c = '"' then ['\\', '"']
  else if c = '\\' then ['\\', '\\']
  else if c = '\n' then ['\\', 'n']
  else if c = '\r' then ['\\', 'r']
  else if c = '\t' then ['\\', 't']
  else [c]

/-- The id-list rendering loop of `mst_steps_json`
(`if (i) out << ","; out << "\"" << json_escape(ids[i]) << "\"";`). -/
def renderIds (ids : List String) : String :=
  String.intercalate "," (ids.map (fun s => "\"" ++ json_escape s ++ "\""))

/-- The step-object rendering of `mst_steps_json` (lines 171–191). -/
def renderStep (st : Step) : String :=
  "\x7b\"consideredEdgeId\":\"" ++ json_escape st.consideredEdgeId ++
  "\",\"action\":\"" ++ st.action ++
  "\",\"reason\":\"" ++ st.reason ++
  "\",\"totalWeight\":" ++ toString st.totalWeight ++
  ",\"mstEdgeIds\":[" ++ renderIds st.mstEdgeIds ++
  "],\"rejectedEdgeIds\":[" ++ renderIds st.rejectedEdgeIds ++ "]\x7d"

/-- The edge loop of `Graph::mst_steps_json`: every edge produces a step;
an edge whose endpoints both resolve attempts `union_set`, otherwise
`accepted` stays `false`.  The accepted/rejected id lists, the running
total and the emitted step snapshots accumulate exactly as in the source. -/
def traceLoop (g : Graph) (es : List Edge) (mstIds rejIds : List String) (total : Int) :
    Graph × List Step × Int :=
  match es with
  | [] => (g, [], total)
  | e :: rest =>
      let a := getIndex g e.src
      let b := getIndex g e.dst
      let u := if 0 ≤ a ∧ 0 ≤ b then union_set g a.toNat b.toNat else (g, false)
      let mstIds2 := if u.2 then mstIds ++ [e.id] else mstIds
      let rejIds2 := if u.2 then rejIds else rejIds ++ [e.id]
      let total2 := if u.2 then total + e.weight else total
      let st : Step :=
        { consideredEdgeId := e.id
          action := if u.2 then "accept" else "reject"
          reason := if u.2 then "ok" else "cycle"
          totalWeight := total2
          mstEdgeIds := mstIds2
          rejectedEdgeIds := rejIds2 }
      let t := traceLoop u.1 rest mstIds2 rejIds2 total2
      (t.1, st :: t.2.1, t.2.2)

/-- Structured form of `Graph::mst_steps_json`: final state, the emitted
steps in order, and the final total. -/
def mst_steps (g : Graph) : Graph × List Step × Int :=
  let g1 := make_set (sort g)
  traceLoop g1 g1.edges [] [] 0

/-- `Graph::mst_steps_json`: the JSON text assembled by the source
(the incremental `first`-flag comma logic is `String.intercalate`). -/
def mst_steps_json (g : Graph) : Graph × String :=
  let t := mst_steps g
  (t.1,
   "\x7b\"steps\":[" ++ String.intercalate "," (t.2.1.map renderStep) ++
   "],\"mstWeight\":" ++ toString t.2.2 ++ "\x7d")

/-- Root of `i` computed by pure iteration of `parent` lookups
(`p.length` iterations always suffice under well-formedness). -/
def rootD (p : List Nat) (i : Nat) : Nat := (pstep p)^[p.length] i

/-- Well-formedness of a parent vector over the universe `[0, n)`:
correct length, in-range parent pointers, and every chain reaches a root. -/
structure WFuf (n : Nat) (p : List Nat) : Prop where
  len : p.length = n
  lt : ∀ i, i < n → pstep p i < n
  reach : ∀ i, i < n → ∃ k, isRoot p ((pstep p)^[k] i)

/-- The disjoint-set state right after `init(n)` (spec §4.1): this is what
`make_set` produces when indices `0..n-1` are registered on a fresh engine. -/
def ufInit (n : Nat) : Graph :=
  { numVertices := (n : Int), numEdges := 0, parent := List.range n,
    rnk := List.replicate n 0, vertices := [], edges := [] }

/-- Apply a sequence of `union_set` operations (keeping only the state). -/
def applyUnions (g : Graph) (U : List (Nat × Nat)) : Graph :=
  U.foldl (fun h ab => (union_set h ab.1 ab.2).1) g

/-- Repeated invocations of `mst` on the same engine: `mstIter g k` is the
`(k+1)`-th call's result. -/
def mstIter (g : Graph) : Nat → Graph × List Edge × Int
  | 0 => mst g
  | k + 1 => mst (mstIter g k).1

/-- Repeated invocations of `mst_steps_json` on the same engine. -/
def jsonIter (g : Graph) : Nat → Graph × String
  | 0 => mst_steps_json g
  | k + 1 => mst_steps_json (jsonIter g k).1

/-- Indices registered in the vertex map (as `Nat`, the form in which the
engine uses them after the `a >= 0` guard). -/
def regIdx (g : Graph) (i : Nat) : Prop := ∃ kv ∈ g.vertices, kv.2.toNat = i

/-- The vertex indices referenced by edges whose endpoint resolves
(used to state the forest invariant of spec §8). -/
def referencedIdx (g : Graph) : Finset Nat :=
  ((g.edges.map (fun e =>
      (if 0 ≤ getIndex g e.src then [(getIndex g e.src).toNat] else []) ++
      (if 0 ≤ getIndex g e.dst then [(getIndex g e.dst).toNat] else []))).flatten).toFinset

/-- `p` and `q` agree (as parent vectors) on every index in `S`. -/
def agreeP (S : Nat → Prop) (p q : List Nat) : Prop :=
  p.length = q.length ∧ ∀ i, S i → p.getD i i = q.getD i i

/-- Every `S`-chain stays inside `S`. -/
def closedS (S : Nat → Prop) (p : List Nat) : Prop := ∀ i, S i → S (p.getD i i)

/-- `r` and `r2` agree (as rank vectors) on every index in `S`. -/
def agreeR (S : Nat → Prop) (r r2 : List Nat) : Prop :=
  r.length = r2.length ∧ ∀ i, S i → r.getD i 0 = r2.getD i 0

/-- The engine state after `init(n)` followed by the union sequence `U`
(spec §4.1: repeated `union` calls on a freshly initialized disjoint set). -/
def ufAfter (n : Nat) (U : List (Nat × Nat)) : Graph := applyUnions (ufInit n) U

/-- Two indices are in the same component (same representative). -/
def sameSet (g : Graph) (x y : Nat) : Prop := rootD g.parent x = rootD g.parent y

/-- The root that survives `union_set g a b` (the higher-rank root; on a
tie, the root of `a`, matching the source's swap logic). -/
def winner (g : Graph) (a b : Nat) : Nat :=
  if g.rnk.getD (rootD g.parent a) 0 < g.rnk.getD (rootD g.parent b) 0
  then rootD g.parent b else rootD g.parent a

/-- The root that is attached under `winner` by `union_set g a b`. -/
def loser (g : Graph) (a b : Nat) : Nat :=
  if g.rnk.getD (rootD g.parent a) 0 < g.rnk.getD (rootD g.parent b) 0
  then rootD g.parent a else rootD g.parent b

/-- Number of distinct components among indices `[0, n)` under the parent
vector `p` (specification helper for the forest invariant). -/
def compN (p : List Nat) (n : Nat) : Nat := ((Finset.range n).image (rootD p)).card

/-! ### Basic list access lemmas -/

theorem getD_oob {α : Type} (l : List α) (n : Nat) (d : α) (h : l.length ≤ n) :
    l.getD n d = d := by
  simp [List.getD_eq_getElem?_getD, List.getElem?_eq_none h]

theorem getD_lt {α : Type} (l : List α) (n : Nat) (d : α) (h : n < l.length) :
    l.getD n d = l[n] := by
  simp [List.getD_eq_getElem?_getD, List.getElem?_eq_getElem h]

theorem getD_set_self {α : Type} (l : List α) (a : Nat) (v d : α) (h : a < l.length) :
    (l.set a v).getD a d = v := by
  simp [List.getD_eq_getElem?_getD, List.getElem?_set_self h]

theorem getD_set_ne {α : Type} (l : List α) (a b : Nat) (v d : α) (h : a ≠ b) :
    (l.set a v).getD b d = l.getD b d := by
  simp [List.getD_eq_getElem?_getD, List.getElem?_set_ne h]

/-! ### Field-preservation lemmas for the engine operations -/

@[simp] theorem make_set_edges (g : Graph) : (make_set g).edges = g.edges := rfl

@[simp] theorem make_set_vertices (g : Graph) : (make_set g).vertices = g.vertices := rfl

@[simp] theorem make_set_numVertices (g : Graph) : (make_set g).numVertices = g.numVertices := rfl

@[simp] theorem sort_edges (g : Graph) : (sort g).edges = sortList g.edges := rfl

@[simp] theorem sort_vertices (g : Graph) : (sort g).vertices = g.vertices := rfl

@[simp] theorem sort_parent (g : Graph) : (sort g).parent = g.parent := rfl

@[simp] theorem sort_rnk (g : Graph) : (sort g).rnk = g.rnk := rfl

@[simp] theorem sort_numVertices (g : Graph) : (sort g).numVertices = g.numVertices := rfl

@[simp] theorem union_set_vertices (g : Graph) (a b : Nat) :
    (union_set g a b).1.vertices = g.vertices := by
  unfold union_set; dsimp only; split <;> rfl

@[simp] theorem union_set_edges (g : Graph) (a b : Nat) :
    (union_set g a b).1.edges = g.edges := by
  unfold union_set; dsimp only; split <;> rfl

@[simp] theorem union_set_numVertices (g : Graph) (a b : Nat) :
    (union_set g a b).1.numVertices = g.numVertices := by
  unfold union_set; dsimp only; split <;> rfl

theorem mstLoop_vertices (es : List Edge) : ∀ (g : Graph) (cost : Int),
    (mstLoop g es cost).1.vertices = g.vertices := by
  induction es with
  | nil => intro g cost; rfl
  | cons e rest ih =>
      intro g cost
      unfold mstLoop
      dsimp only
      rw [ih]
      by_cases h : 0 ≤ getIndex g e.src ∧ 0 ≤ getIndex g e.dst
      · simp [h]
      · simp [h]

theorem mstLoop_edges (es : List Edge) : ∀ (g : Graph) (cost : Int),
    (mstLoop g es cost).1.edges = g.edges := by
  induction es with
  | nil => intro g cost; rfl
  | cons e rest ih =>
      intro g cost
      unfold mstLoop
      dsimp only
      rw [ih]
      by_cases h : 0 ≤ getIndex g e.src ∧ 0 ≤ getIndex g e.dst
      · simp [h]
      · simp [h]

theorem mstLoop_numVertices (es : List Edge) : ∀ (g : Graph) (cost : Int),
    (mstLoop g es cost).1.numVertices = g.numVertices := by
  induction es with
  | nil => intro g cost; rfl
  | cons e rest ih =>
      intro g cost
      unfold mstLoop
      dsimp only
      rw [ih]
      by_cases h : 0 ≤ getIndex g e.src ∧ 0 ≤ getIndex g e.dst
      · simp [h]
      · simp [h]


theorem getIndex_congr (g h : Graph) (hv : g.vertices = h.vertices) (nm : String) :
    getIndex g nm = getIndex h nm := by
  unfold getIndex
  rw [hv]

theorem loopStep_vertices (g : Graph) (a b : Int) :
    ((if 0 ≤ a ∧ 0 ≤ b then union_set g a.toNat b.toNat else (g, false)).1).vertices
      = g.vertices := by
  split
  · exact union_set_vertices g a.toNat b.toNat
  · rfl

/-! ### Claim C9: JSON escaping -/

theorem escNext_data (o : String) (c : Char) : (escNext o c).data = o.data ++ escapeSpec c := by
  unfold escNext escapeSpec
  by_cases h1 : c = '"' <;> by_cases h2 : c = '\\' <;> by_cases h3 : c = '\n' <;>
    by_cases h4 : c = '\r' <;> by_cases h5 : c = '\t' <;>
    simp_all [String.data_append, String.data_push]

theorem foldl_escNext_data (cs : List Char) : ∀ (acc : String),
    (cs.foldl escNext acc).data = acc.data ++ cs.flatMap escapeSpec := by
  induction cs with
  | nil => intro acc; simp
  | cons c rest ih =>
      intro acc
      simp only [List.foldl_cons, List.flatMap_cons, ih, escNext_data, List.append_assoc]

/-- Claim C9: `json_escape` maps `"`, `\`, newline, carriage return and tab
to their two-character escape sequences and leaves every other character
unchanged — character by character it is exactly `escapeSpec`. -/
theorem C9_theorem (s : String) :
    (json_escape s).data = s.data.flatMap escapeSpec := by
  unfold json_escape
  rw [show s.toList = s.data from rfl, foldl_escNext_data]
  rfl

/-! ### Claim C4: duplicate vertex registration -/

/-- Claim C4 counterexample: registering `"A"` at index `0` and then again
at index `1`, `getIndex` returns the FIRST index `0`, not the most recent
`1` — `std::map::emplace` does not overwrite. -/
theorem C4_counterexample :
    getIndex (addVertex (addVertex (Graph.new 2 0) "A" 0) "A" 1) "A" = 0 ∧
    getIndex (addVertex (addVertex (Graph.new 2 0) "A" 0) "A" 1) "A" ≠ 1 := by
  constructor <;> decide

/-- Claim C4 (amended): when the same name is registered twice, the FIRST
registration wins: the second `addVertex` is a no-op on the engine state,
and `getIndex` returns the index passed in the first call. -/
theorem C4_theorem (g : Graph) (name : String) (i j : Int)
    (h : ∀ kv ∈ g.vertices, kv.1 ≠ name) :
    addVertex (addVertex g name i) name j = addVertex g name i ∧
    getIndex (addVertex (addVertex g name i) name j) name = i := by
  have hnone : g.vertices.find? (fun kv => kv.1 == name) = none := by
    rw [List.find?_eq_none]
    intro kv hkv
    simpa using h kv hkv
  have h1 : addVertex g name i = { g with vertices := g.vertices ++ [(name, i)] } := by
    unfold addVertex
    rw [hnone]
    rfl
  have hfind : (g.vertices ++ [(name, i)]).find? (fun kv => kv.1 == name) = some (name, i) := by
    rw [List.find?_append, hnone]
    simp
  have h2 : addVertex (addVertex g name i) name j = addVertex g name i := by
    rw [h1]
    unfold addVertex
    simp only [hfind]
    rfl
  refine ⟨h2, ?_⟩
  rw [h2, h1]
  unfold getIndex
  simp only [hfind]

/-! ### Claim C10: empty edge list -/

theorem sort_eq_self_of_empty (g : Graph) (h : g.edges = []) : sort g = g := by
  have hl : sortList g.edges = g.edges := by rw [h]; rfl
  unfold sort
  rw [hl]

/-- Claim C10: with no edges, `mst` returns an empty accepted sequence and
cost `0`, `mst_steps_json` returns exactly the fixed empty-trace JSON
string, and the internal sort is a no-op (its empty-list guard fires, so
no indexing into the empty list happens). -/
theorem C10_theorem (g : Graph) (h : g.edges = []) :
    (mst g).2 = ([], 0) ∧
    (mst_steps_json g).2 = "\x7b\"steps\":[],\"mstWeight\":0\x7d" ∧
    sort g = g := by
  have hs : (make_set (sort g)).edges = [] := by
    rw [make_set_edges, sort_edges, h]
    rfl
  refine ⟨?_, ?_, sort_eq_self_of_empty g h⟩
  · unfold mst
    dsimp only
    rw [hs]
    rfl
  · unfold mst_steps_json mst_steps
    dsimp only
    rw [hs]
    rfl

/-! ### The deterministic edge sort (claims C2, C3) -/

theorem mergeF_perm : ∀ (f : Nat) (v1 v2 : List Edge), v1.length + v2.length ≤ f →
    (mergeF f v1 v2).Perm (v1 ++ v2) := by
  intro f
  induction f with
  | zero =>
      intro v1 v2 h
      have h1 : v1 = [] := List.length_eq_zero.mp (by omega)
      have h2 : v2 = [] := List.length_eq_zero.mp (by omega)
      subst h1; subst h2
      exact List.Perm.refl _
  | succ f ih =>
      intro v1 v2 h
      match v1, v2 with
      | [], v2 => simp [mergeF]
      | e1 :: t1, [] => simp [mergeF]
      | e1 :: t1, e2 :: t2 =>
          simp only [mergeF]
          split
          · exact List.Perm.cons e1 (ih t1 (e2 :: t2) (by simp at h ⊢; omega))
          · refine List.Perm.trans ?_ (List.perm_middle.symm)
            exact List.Perm.cons e2 (ih (e1 :: t1) t2 (by simp at h ⊢; omega))

theorem mergeEdges_perm (v1 v2 : List Edge) : (mergeEdges v1 v2).Perm (v1 ++ v2) :=
  mergeF_perm _ v1 v2 le_rfl

theorem mergeF_sorted : ∀ (f : Nat) (v1 v2 : List Edge), v1.length + v2.length ≤ f →
    List.Pairwise (fun a b : Edge => a.weight ≤ b.weight) v1 →
    List.Pairwise (fun a b : Edge => a.weight ≤ b.weight) v2 →
    List.Pairwise (fun a b : Edge => a.weight ≤ b.weight) (mergeF f v1 v2) := by
  intro f
  induction f with
  | zero => intro v1 v2 h _ _; simp [mergeF]
  | succ f ih =>
      intro v1 v2 h h1 h2
      match v1, v2 with
      | [], v2 => simpa [mergeF] using h2
      | e1 :: t1, [] => simpa [mergeF] using h1
      | e1 :: t1, e2 :: t2 =>
          rw [List.pairwise_cons] at h1 h2
          simp only [mergeF]
          split
          · rename_i hlt
            rw [List.pairwise_cons]
            constructor
            · intro x hx
              have hx2 := (mergeF_perm f t1 (e2 :: t2) (by simp at h ⊢; omega)).mem_iff.mp hx
              rcases List.mem_append.mp hx2 with hx3 | hx3
              · exact h1.1 x hx3
              · rcases List.mem_cons.mp hx3 with rfl | hx4
                · exact le_of_lt hlt
                · exact le_trans (le_of_lt hlt) (h2.1 x hx4)
            · exact ih t1 (e2 :: t2) (by simp at h ⊢; omega) h1.2
                (List.pairwise_cons.mpr h2)
          · rename_i hge
            rw [List.pairwise_cons]
            constructor
            · intro x hx
              have hx2 := (mergeF_perm f (e1 :: t1) t2 (by simp at h ⊢; omega)).mem_iff.mp hx
              rcases List.mem_append.mp hx2 with hx3 | hx3
              · rcases List.mem_cons.mp hx3 with rfl | hx4
                · omega
                · exact le_trans (by omega) (h1.1 x hx4)
              · exact h2.1 x hx3
            · exact ih (e1 :: t1) t2 (by simp at h ⊢; omega)
                (List.pairwise_cons.mpr h1) h2.2

theorem mergeEdges_sorted (v1 v2 : List Edge)
    (h1 : List.Pairwise (fun a b : Edge => a.weight ≤ b.weight) v1)
    (h2 : List.Pairwise (fun a b : Edge => a.weight ≤ b.weight) v2) :
    List.Pairwise (fun a b : Edge => a.weight ≤ b.weight) (mergeEdges v1 v2) :=
  mergeF_sorted _ v1 v2 le_rfl h1 h2

theorem mergeF_filter : ∀ (f : Nat) (v1 v2 : List Edge) (w : Int),
    v1.length + v2.length ≤ f →
    List.Pairwise (fun a b : Edge => a.weight ≤ b.weight) v2 →
    (mergeF f v1 v2).filter (fun e => e.weight == w) =
      v2.filter (fun e => e.weight == w) ++ v1.filter (fun e => e.weight == w) := by
  intro f
  induction f with
  | zero =>
      intro v1 v2 w h _
      have h1 : v1 = [] := List.length_eq_zero.mp (by omega)
      have h2 : v2 = [] := List.length_eq_zero.mp (by omega)
      subst h1; subst h2
      rfl
  | succ f ih =>
      intro v1 v2 w h h2
      match v1, v2 with
      | [], v2 => simp [mergeF]
      | e1 :: t1, [] => simp [mergeF]
      | e1 :: t1, e2 :: t2 =>
          rw [List.pairwise_cons] at h2
          simp only [mergeF]
          split
          · rename_i hlt
            rw [List.filter_cons, ih t1 (e2 :: t2) w (by simp at h ⊢; omega)
                  (List.pairwise_cons.mpr h2)]
            by_cases hw : e1.weight = w
            · have hnil : (e2 :: t2).filter (fun e => e.weight == w) = [] := by
                rw [List.filter_eq_nil_iff]
                intro x hx
                rcases List.mem_cons.mp hx with rfl | hx2
                · simp only [beq_iff_eq]; omega
                · have := h2.1 x hx2; simp only [beq_iff_eq]; omega
              simp [hnil, hw]
            · simp [hw, beq_iff_eq]
          · rename_i hge
            rw [List.filter_cons,
                ih (e1 :: t1) t2 w (by simp at h ⊢; omega) h2.2, List.filter_cons]
            by_cases hw : e2.weight = w
            · simp [hw]
            · simp [hw, beq_iff_eq]

theorem mergeEdges_filter (v1 v2 : List Edge) (w : Int)
    (h2 : List.Pairwise (fun a b : Edge => a.weight ≤ b.weight) v2) :
    (mergeEdges v1 v2).filter (fun e => e.weight == w) =
      v2.filter (fun e => e.weight == w) ++ v1.filter (fun e => e.weight == w) :=
  mergeF_filter _ v1 v2 w le_rfl h2

theorem extract_single (v : List Edge) (low : Nat) (h : low < v.length) :
    extract v low low = [v.getD low default] := by
  unfold extract
  have ht : low + 1 - low = 1 := by omega
  rw [ht, List.drop_eq_getElem_cons h, getD_lt v low default h]
  rfl

theorem extract_split (v : List Edge) (low mid hi : Nat) (h1 : low ≤ mid) (h2 : mid < hi) :
    extract v low hi = extract v low mid ++ extract v (mid + 1) hi := by
  unfold extract
  have hd : v.drop (mid + 1) = (v.drop low).drop (mid + 1 - low) := by
    rw [List.drop_drop]
    congr 1
    omega
  rw [hd]
  have ha : hi + 1 - low = (mid + 1 - low) + (hi - mid) := by omega
  have hb : hi + 1 - (mid + 1) = hi - mid := by omega
  rw [ha, hb, List.take_add]

theorem extract_full (v : List Edge) (h : v ≠ []) :
    extract v 0 (v.length - 1) = v := by
  unfold extract
  have hlen : v.length - 1 + 1 - 0 = v.length := by
    have : 0 < v.length := List.length_pos.mpr h
    omega
  rw [List.drop_zero, hlen, List.take_length]

theorem sortF_spec : ∀ (f : Nat) (v : List Edge) (low hi : Nat),
    low ≤ hi → hi < v.length → hi + 1 - low ≤ f →
    (sortF f v low hi).Perm (extract v low hi) ∧
    List.Pairwise (fun a b : Edge => a.weight ≤ b.weight) (sortF f v low hi) ∧
    ∀ w : Int, (sortF f v low hi).filter (fun e => e.weight == w) =
      ((extract v low hi).filter (fun e => e.weight == w)).reverse := by
  intro f
  induction f with
  | zero => intro v low hi h1 h2 h3; omega
  | succ f ih =>
      intro v low hi h1 h2 h3
      by_cases heq : low = hi
      · subst heq
        simp only [sortF, if_pos rfl]
        rw [extract_single v low h2]
        refine ⟨List.Perm.refl _, List.pairwise_singleton _ _, ?_⟩
        intro w
        have hsing : ∀ (x : Edge) (p : Edge → Bool),
            List.filter p [x] = (List.filter p [x]).reverse := by
          intro x p
          cases h : p x <;> simp [List.filter_singleton, h]
        exact hsing _ _
      · have hlt : low < hi := by omega
        have hnlt : ¬ hi < low := by omega
        simp only [sortF, if_neg heq, if_neg hnlt]
        have hm1 : low ≤ (low + hi) / 2 := by omega
        have hm2 : (low + hi) / 2 < hi := by omega
        have hm3 : (low + hi) / 2 < v.length := by omega
        obtain ⟨ihp1, ihs1, ihf1⟩ := ih v low ((low + hi) / 2) hm1 hm3 (by omega)
        obtain ⟨ihp2, ihs2, ihf2⟩ := ih v ((low + hi) / 2 + 1) hi (by omega) h2 (by omega)
        have hsplit := extract_split v low ((low + hi) / 2) hi hm1 hm2
        refine ⟨?_, ?_, ?_⟩
        · rw [hsplit]
          exact (mergeEdges_perm _ _).trans (List.Perm.append ihp1 ihp2)
        · exact mergeEdges_sorted _ _ ihs1 ihs2
        · intro w
          rw [mergeEdges_filter _ _ w ihs2, ihf1 w, ihf2 w, hsplit,
              List.filter_append, List.reverse_append]

theorem sortList_perm (l : List Edge) : (sortList l).Perm l := by
  by_cases hne : l = []
  · subst hne; exact List.Perm.refl _
  · have hpos : 0 < l.length := List.length_pos.mpr hne
    unfold sortList
    rw [if_neg (by simpa [List.isEmpty_iff] using hne)]
    unfold sortEdges
    have := (sortF_spec (l.length - 1 + 1 - 0) l 0 (l.length - 1)
      (by omega) (by omega) le_rfl).1
    rwa [extract_full l hne] at this

theorem sortList_sorted (l : List Edge) :
    List.Pairwise (fun a b : Edge => a.weight ≤ b.weight) (sortList l) := by
  by_cases hne : l = []
  · subst hne; simp [sortList]
  · have hpos : 0 < l.length := List.length_pos.mpr hne
    unfold sortList
    rw [if_neg (by simpa [List.isEmpty_iff] using hne)]
    unfold sortEdges
    exact (sortF_spec (l.length - 1 + 1 - 0) l 0 (l.length - 1)
      (by omega) (by omega) le_rfl).2.1

theorem sortList_filter (l : List Edge) (w : Int) :
    (sortList l).filter (fun e => e.weight == w) =
      (l.filter (fun e => e.weight == w)).reverse := by
  by_cases hne : l = []
  · subst hne; rfl
  · have hpos : 0 < l.length := List.length_pos.mpr hne
    unfold sortList
    rw [if_neg (by simpa [List.isEmpty_iff] using hne)]
    unfold sortEdges
    have := (sortF_spec (l.length - 1 + 1 - 0) l 0 (l.length - 1)
      (by omega) (by omega) le_rfl).2.2 w
    rwa [extract_full l hne] at this

/-- Claim C2 (amended): the edge sort is a permutation, ascending by
weight, but it is ANTI-stable on ties: when merging, the RIGHT half's head
is taken on weight equality, so for every weight `w` the subsequence of
weight-`w` edges in the sorted output is the REVERSE of their subsequence
in the original input. -/
theorem C2_theorem (l : List Edge) (w : Int) :
    (sortList l).Perm l ∧
    List.Pairwise (fun a b : Edge => a.weight ≤ b.weight) (sortList l) ∧
    (sortList l).filter (fun e => e.weight == w) =
      (l.filter (fun e => e.weight == w)).reverse :=
  ⟨sortList_perm l, sortList_sorted l, sortList_filter l w⟩

/-! ### Union-find core theory (claims C6, C7): iteration and roots -/

theorem iter_congr (f g2 : Nat → Nat) (h : ∀ x, f x = g2 x) :
    ∀ (k : Nat) (x : Nat), f^[k] x = g2^[k] x := by
  intro k
  induction k with
  | zero => intro x; rfl
  | succ k ih =>
      intro x
      rw [Function.iterate_succ_apply, Function.iterate_succ_apply, h, ih]

theorem iter_lt (n : Nat) (p : List Nat) (hlt : ∀ i, i < n → pstep p i < n) :
    ∀ (k : Nat) (i : Nat), i < n → (pstep p)^[k] i < n := by
  intro k
  induction k with
  | zero => intro i hi; simpa using hi
  | succ k ih =>
      intro i hi
      rw [Function.iterate_succ_apply]
      exact ih (pstep p i) (hlt i hi)

theorem iter_stab (p : List Nat) (k : Nat) (i : Nat)
    (h : isRoot p ((pstep p)^[k] i)) :
    ∀ m, k ≤ m → (pstep p)^[m] i = (pstep p)^[k] i := by
  intro m hkm
  have hm : m = (m - k) + k := by omega
  rw [hm, Function.iterate_add_apply]
  exact Function.iterate_fixed h (m - k)

theorem find_pstep_lt (n : Nat) (p : List Nat) (h : WFuf n p) (i : Nat) (hi : i < n)
    (hni : ¬ isRoot p i) :
    Nat.find (h.reach (pstep p i) (h.lt i hi)) < Nat.find (h.reach i hi) := by
  have hspec : isRoot p ((pstep p)^[Nat.find (h.reach i hi)] i) :=
    Nat.find_spec (h.reach i hi)
  have hdpos : Nat.find (h.reach i hi) ≠ 0 := by
    intro h0
    rw [h0] at hspec
    exact hni (by simpa using hspec)
  have hstep : isRoot p ((pstep p)^[Nat.find (h.reach i hi) - 1] (pstep p i)) := by
    rw [← Function.iterate_succ_apply]
    have he : (Nat.find (h.reach i hi) - 1).succ = Nat.find (h.reach i hi) := by omega
    rw [he]
    exact hspec
  have := @Nat.find_le (Nat.find (h.reach i hi) - 1)
    (fun k => isRoot p ((pstep p)^[k] (pstep p i))) _
    (h.reach (pstep p i) (h.lt i hi)) hstep
  omega

theorem dist_lt (n : Nat) (p : List Nat) (h : WFuf n p) (i : Nat) (hi : i < n) :
    Nat.find (h.reach i hi) < n := by
  by_contra hcon
  push_neg at hcon
  have hltn : ∀ k, (pstep p)^[k] i < n := fun k => iter_lt n p h.lt k i hi
  have key : ∀ s t, s < t → t ≤ Nat.find (h.reach i hi) →
      (pstep p)^[s] i = (pstep p)^[t] i → False := by
    intro s t hst htd heq
    have h1 : (pstep p)^[Nat.find (h.reach i hi)] i
        = (pstep p)^[(Nat.find (h.reach i hi) - t) + t] i := by
      congr 1
      omega
    rw [Function.iterate_add_apply, ← heq, ← Function.iterate_add_apply] at h1
    have hroot : isRoot p ((pstep p)^[(Nat.find (h.reach i hi) - t) + s] i) := by
      rw [← h1]
      exact Nat.find_spec (h.reach i hi)
    exact absurd hroot (Nat.find_min (h.reach i hi) (by omega))
  have hinj : Function.Injective
      (fun k : Fin (Nat.find (h.reach i hi) + 1) =>
        (⟨(pstep p)^[k.1] i, hltn k.1⟩ : Fin n)) := by
    rintro ⟨s, hs⟩ ⟨t, ht⟩ hst
    simp only [Fin.mk.injEq] at hst
    rcases Nat.lt_trichotomy s t with hlt2 | heq2 | hlt2
    · exact absurd (key s t hlt2 (by omega) hst) (fun x => x)
    · simpa using heq2
    · exact absurd (key t s hlt2 (by omega) hst.symm) (fun x => x)
  have := Fintype.card_le_of_injective _ hinj
  simp only [Fintype.card_fin] at this
  omega

theorem rootD_eq_find (n : Nat) (p : List Nat) (h : WFuf n p) (i : Nat) (hi : i < n) :
    rootD p i = (pstep p)^[Nat.find (h.reach i hi)] i := by
  unfold rootD
  rw [h.len]
  exact iter_stab p (Nat.find (h.reach i hi)) i (Nat.find_spec (h.reach i hi)) n
    (le_of_lt (dist_lt n p h i hi))

theorem rootD_isRoot (n : Nat) (p : List Nat) (h : WFuf n p) (i : Nat) (hi : i < n) :
    isRoot p (rootD p i) := by
  rw [rootD_eq_find n p h i hi]
  exact Nat.find_spec (h.reach i hi)

theorem rootD_lt (n : Nat) (p : List Nat) (h : WFuf n p) (i : Nat) (hi : i < n) :
    rootD p i < n := by
  unfold rootD
  rw [h.len]
  exact iter_lt n p h.lt n i hi

theorem isRoot_rootD_self (p : List Nat) (i : Nat) (h : isRoot p i) : rootD p i = i :=
  Function.iterate_fixed h p.length

theorem rootD_pstep (n : Nat) (p : List Nat) (h : WFuf n p) (i : Nat) (hi : i < n) :
    rootD p (pstep p i) = rootD p i := by
  by_cases hr : isRoot p i
  · rw [show pstep p i = i from hr]
  · unfold rootD
    rw [← Function.iterate_succ_apply]
    have hd := Nat.find_spec (h.reach i hi)
    have hdl := dist_lt n p h i hi
    have hlen := h.len
    rw [iter_stab p (Nat.find (h.reach i hi)) i hd p.length.succ (by omega),
        iter_stab p (Nat.find (h.reach i hi)) i hd p.length (by omega)]

theorem rootD_rootD (n : Nat) (p : List Nat) (h : WFuf n p) (i : Nat) (hi : i < n) :
    rootD p (rootD p i) = rootD p i :=
  isRoot_rootD_self p (rootD p i) (rootD_isRoot n p h i hi)

theorem isRoot_of_rootD_eq (n : Nat) (p : List Nat) (h : WFuf n p) (i : Nat) (hi : i < n)
    (he : rootD p i = i) : isRoot p i := by
  have := rootD_isRoot n p h i hi
  rwa [he] at this

theorem pstep_set_self (p : List Nat) (a v : Nat) (h : a < p.length) :
    pstep (p.set a v) a = v :=
  getD_set_self p a v a h

theorem pstep_set_ne (p : List Nat) (a v j : Nat) (h : a ≠ j) :
    pstep (p.set a v) j = pstep p j :=
  getD_set_ne p a j v j h

theorem WFuf_congr (n : Nat) (p q : List Nat) (hlen : q.length = p.length)
    (hps : ∀ x, pstep q x = pstep p x) (h : WFuf n p) : WFuf n q := by
  refine ⟨hlen.trans h.len, fun i hi => by rw [hps]; exact h.lt i hi, fun i hi => ?_⟩
  obtain ⟨k, hk⟩ := h.reach i hi
  refine ⟨k, ?_⟩
  unfold isRoot
  rw [hps, iter_congr (pstep q) (pstep p) hps k i, hk]

theorem rootD_congr (p q : List Nat) (hlen : q.length = p.length)
    (hps : ∀ x, pstep q x = pstep p x) (i : Nat) : rootD q i = rootD p i := by
  unfold rootD
  rw [hlen]
  exact iter_congr (pstep q) (pstep p) hps p.length i

theorem uf_ind (n : Nat) (p : List Nat) (h : WFuf n p) (P : Nat → Prop)
    (step : ∀ i, i < n → (¬ isRoot p i → P (pstep p i)) → P i) :
    ∀ i, i < n → P i := by
  have key : ∀ (m : Nat) (i : Nat) (hi : i < n), Nat.find (h.reach i hi) ≤ m → P i := by
    intro m
    induction m with
    | zero =>
        intro i hi hf
        refine step i hi (fun hni => absurd ?_ hni)
        have hspec := Nat.find_spec (h.reach i hi)
        rw [Nat.le_zero.mp hf] at hspec
        simpa using hspec
    | succ m ih =>
        intro i hi hf
        refine step i hi (fun hni => ?_)
        have hlt := find_pstep_lt n p h i hi hni
        exact ih (pstep p i) (h.lt i hi) (by omega)
  intro i hi
  exact key (Nat.find (h.reach i hi)) i hi le_rfl

theorem rootD_set_spec (n : Nat) (p : List Nat) (h : WFuf n p) (a : Nat) (ha : a < n) :
    WFuf n (p.set a (rootD p a)) ∧
    ∀ j, j < n → rootD (p.set a (rootD p a)) j = rootD p j := by
  by_cases hra : isRoot p a
  · have he : rootD p a = a := isRoot_rootD_self p a hra
    have hps : ∀ x, pstep (p.set a (rootD p a)) x = pstep p x := by
      intro x
      by_cases hx : x = a
      · subst hx
        rw [he, pstep_set_self p x x (by rw [h.len]; exact ha)]
        exact hra.symm
      · exact pstep_set_ne p a _ x (fun hc => hx hc.symm)
    exact ⟨WFuf_congr n p _ (by simp) hps h,
      fun j _ => rootD_congr p _ (by simp) hps j⟩
  · have hroot : isRoot p (rootD p a) := rootD_isRoot n p h a ha
    have hrn : rootD p a < n := rootD_lt n p h a ha
    have hne : rootD p a ≠ a := fun hc => hra (isRoot_of_rootD_eq n p h a ha hc)
    have hpsself : pstep (p.set a (rootD p a)) a = rootD p a :=
      pstep_set_self p a _ (by rw [h.len]; exact ha)
    have hpsne : ∀ x, x ≠ a → pstep (p.set a (rootD p a)) x = pstep p x :=
      fun x hx => pstep_set_ne p a _ x (fun hc => hx hc.symm)
    have hrootr : isRoot (p.set a (rootD p a)) (rootD p a) := by
      unfold isRoot
      rw [hpsne _ hne]
      exact hroot
    have hwf : WFuf n (p.set a (rootD p a)) := by
      refine ⟨by simpa using h.len, ?_, ?_⟩
      · intro i hi
        by_cases hx : i = a
        · subst hx
          rw [hpsself]
          exact hrn
        · rw [hpsne i hx]
          exact h.lt i hi
      · refine uf_ind n p h _ (fun j hj ihj => ?_)
        by_cases hrj : isRoot p j
        · have hja : j ≠ a := fun hc => hra (hc ▸ hrj)
          exact ⟨0, by simpa [isRoot] using (hpsne j hja).trans hrj⟩
        · by_cases hja : j = a
          · subst hja
            refine ⟨1, ?_⟩
            simp only [Function.iterate_one]
            rw [show pstep (p.set j (rootD p j)) j = rootD p j from hpsself]
            exact hrootr
          · obtain ⟨k, hk⟩ := ihj hrj
            refine ⟨k + 1, ?_⟩
            rw [Function.iterate_succ_apply, hpsne j hja]
            exact hk
    refine ⟨hwf, ?_⟩
    refine uf_ind n p h _ (fun j hj ihj => ?_)
    by_cases hrj : isRoot p j
    · have hja : j ≠ a := fun hc => hra (hc ▸ hrj)
      have hrj2 : isRoot (p.set a (rootD p a)) j := by
        unfold isRoot
        rw [hpsne j hja]
        exact hrj
      rw [isRoot_rootD_self _ j hrj2, isRoot_rootD_self p j hrj]
    · by_cases hja : j = a
      · subst hja
        rw [← rootD_pstep n _ hwf j hj, hpsself,
            isRoot_rootD_self _ _ hrootr]
      · rw [← rootD_pstep n _ hwf j hj, hpsne j hja, ihj hrj,
            rootD_pstep n p h j hj]

theorem rootD_link_spec (n : Nat) (p : List Nat) (h : WFuf n p) (l s : Nat)
    (hl : isRoot p l) (hs : isRoot p s) (hln : l < n) (hsn : s < n) (hne : l ≠ s) :
    WFuf n (p.set l s) ∧
    ∀ j, j < n → rootD (p.set l s) j = (if rootD p j = l then s else rootD p j) := by
  have hpsself : pstep (p.set l s) l = s :=
    pstep_set_self p l s (by rw [h.len]; exact hln)
  have hpsne : ∀ x, x ≠ l → pstep (p.set l s) x = pstep p x :=
    fun x hx => pstep_set_ne p l s x (fun hc => hx hc.symm)
  have hroots : isRoot (p.set l s) s := by
    unfold isRoot
    rw [hpsne s (Ne.symm hne)]
    exact hs
  have hwf : WFuf n (p.set l s) := by
    refine ⟨by simpa using h.len, ?_, ?_⟩
    · intro i hi
      by_cases hx : i = l
      · subst hx
        rw [hpsself]
        exact hsn
      · rw [hpsne i hx]
        exact h.lt i hi
    · refine uf_ind n p h _ (fun j hj ihj => ?_)
      by_cases hrj : isRoot p j
      · by_cases hjl : j = l
        · subst hjl
          refine ⟨1, ?_⟩
          simp only [Function.iterate_one]
          rw [show pstep (p.set j s) j = s from hpsself]
          exact hroots
        · exact ⟨0, by simpa [isRoot] using (hpsne j hjl).trans hrj⟩
      · have hjl : j ≠ l := fun hc => hrj (hc ▸ hl)
        obtain ⟨k, hk⟩ := ihj hrj
        refine ⟨k + 1, ?_⟩
        rw [Function.iterate_succ_apply, hpsne j hjl]
        exact hk
  refine ⟨hwf, ?_⟩
  refine uf_ind n p h _ (fun j hj ihj => ?_)
  by_cases hrj : isRoot p j
  · by_cases hjl : j = l
    · subst hjl
      rw [← rootD_pstep n _ hwf j hj, hpsself, isRoot_rootD_self _ s hroots,
          isRoot_rootD_self p j hrj, if_pos rfl]
    · have hrj2 : isRoot (p.set l s) j := by
        unfold isRoot
        rw [hpsne j hjl]
        exact hrj
      rw [isRoot_rootD_self _ j hrj2, isRoot_rootD_self p j hrj, if_neg hjl]
  · have hjl : j ≠ l := fun hc => hrj (hc ▸ hl)
    rw [← rootD_pstep n _ hwf j hj, hpsne j hjl, ihj hrj,
        rootD_pstep n p h j hj]


theorem find_set_spec (n : Nat) : ∀ (fuel : Nat) (p : List Nat) (a : Nat) (h : WFuf n p)
    (ha : a < n), Nat.find (h.reach a ha) ≤ fuel →
    (find_set fuel p a).2 = rootD p a ∧
    WFuf n (find_set fuel p a).1 ∧
    ∀ j, j < n → rootD (find_set fuel p a).1 j = rootD p j := by
  intro fuel
  induction fuel with
  | zero =>
      intro p a h ha hf
      have hroot : isRoot p a := by
        have hspec := Nat.find_spec (h.reach a ha)
        rw [Nat.le_zero.mp hf] at hspec
        simpa using hspec
      exact ⟨(isRoot_rootD_self p a hroot).symm, h, fun j hj => rfl⟩
  | succ fuel ih =>
      intro p a h ha hf
      by_cases hroot : pstep p a = a
      · have hred : find_set (fuel + 1) p a = (p, a) := by
          simp [find_set, hroot]
        rw [hred]
        exact ⟨(isRoot_rootD_self p a hroot).symm, h, fun j hj => rfl⟩
      · have hred : find_set (fuel + 1) p a =
            ((find_set fuel p (pstep p a)).1.set a (find_set fuel p (pstep p a)).2,
             (find_set fuel p (pstep p a)).2) := by
          simp [find_set, hroot]
        rw [hred]
        have hfs : Nat.find (h.reach (pstep p a) (h.lt a ha)) ≤ fuel := by
          have := find_pstep_lt n p h a ha hroot
          omega
        obtain ⟨ih1, ih2, ih3⟩ := ih p (pstep p a) h (h.lt a ha) hfs
        have hr2 : (find_set fuel p (pstep p a)).2 = rootD p a := by
          rw [ih1, rootD_pstep n p h a ha]
        have hval : (find_set fuel p (pstep p a)).2
            = rootD (find_set fuel p (pstep p a)).1 a := by
          rw [hr2, ih3 a ha]
        obtain ⟨hwf2, hroots2⟩ :=
          rootD_set_spec n (find_set fuel p (pstep p a)).1 ih2 a ha
        refine ⟨hr2, ?_, ?_⟩
        · rw [hval]
          exact hwf2
        · intro j hj
          rw [hval, hroots2 j hj, ih3 j hj]

theorem find_set_root (n : Nat) (p : List Nat) (a : Nat) (h : WFuf n p) (ha : a < n) :
    (find_set p.length p a).2 = rootD p a ∧
    WFuf n (find_set p.length p a).1 ∧
    ∀ j, j < n → rootD (find_set p.length p a).1 j = rootD p j := by
  refine find_set_spec n p.length p a h ha ?_
  have := dist_lt n p h a ha
  have hlen := h.len
  omega

theorem union_set_spec (n : Nat) (g : Graph) (h : WFuf n g.parent)
    (hrl : g.rnk.length = n) (a b : Nat) (ha : a < n) (hb : b < n)
    (ra rb s l : Nat)
    (hra : ra = rootD g.parent a) (hrb : rb = rootD g.parent b)
    (hs : s = if g.rnk.getD ra 0 < g.rnk.getD rb 0 then rb else ra)
    (hl : l = if g.rnk.getD ra 0 < g.rnk.getD rb 0 then ra else rb) :
    WFuf n (union_set g a b).1.parent ∧
    (union_set g a b).1.rnk.length = n ∧
    ((union_set g a b).2 = false ↔ ra = rb) ∧
    (∀ x, x < n → rootD (union_set g a b).1.parent x =
      (if ra ≠ rb ∧ rootD g.parent x = l then s else rootD g.parent x)) ∧
    (ra ≠ rb → pstep (union_set g a b).1.parent l = s) ∧
    ((union_set g a b).1.rnk =
      if ra ≠ rb ∧ g.rnk.getD ra 0 = g.rnk.getD rb 0
      then g.rnk.set ra (g.rnk.getD ra 0 + 1) else g.rnk) := by
  obtain ⟨hfa2, hfawf, hfaroots⟩ := find_set_root n g.parent a h ha
  have hlenfa : (find_set g.parent.length g.parent a).1.length = n := hfawf.len
  obtain ⟨hfb2, hfbwf, hfbroots⟩ :=
    find_set_spec n (find_set g.parent.length g.parent a).1.length
      (find_set g.parent.length g.parent a).1 b hfawf hb
      (by
        have := dist_lt n _ hfawf b hb
        omega)
  have hroots : ∀ j, j < n →
      rootD (find_set (find_set g.parent.length g.parent a).1.length
        (find_set g.parent.length g.parent a).1 b).1 j = rootD g.parent j :=
    fun j hj => (hfbroots j hj).trans (hfaroots j hj)
  have hfa2' : (find_set g.parent.length g.parent a).2 = ra := by rw [hfa2, hra]
  have hfb2' : (find_set (find_set g.parent.length g.parent a).1.length
      (find_set g.parent.length g.parent a).1 b).2 = rb := by
    rw [hfb2, hfaroots b hb, hrb]
  unfold union_set
  dsimp only
  rw [hfa2', hfb2']
  by_cases heq : ra = rb
  · rw [if_pos heq]
    refine ⟨hfbwf, hrl, by simp [heq], ?_, ?_, ?_⟩
    · intro x hx
      rw [if_neg (by simp [heq]), hroots x hx]
    · intro hcon
      exact absurd heq hcon
    · rw [if_neg (by simp [heq])]
  · rw [if_neg heq]
    have hrban : ra < n := by rw [hra]; exact rootD_lt n g.parent h a ha
    have hrbbn : rb < n := by rw [hrb]; exact rootD_lt n g.parent h b hb
    have hrroota : isRoot g.parent ra := by
      rw [hra]; exact rootD_isRoot n g.parent h a ha
    have hrrootb : isRoot g.parent rb := by
      rw [hrb]; exact rootD_isRoot n g.parent h b hb
    have hrootDra : rootD g.parent ra = ra := isRoot_rootD_self _ _ hrroota
    have hrootDrb : rootD g.parent rb = rb := isRoot_rootD_self _ _ hrrootb
    have hisa : isRoot (find_set (find_set g.parent.length g.parent a).1.length
        (find_set g.parent.length g.parent a).1 b).1 ra := by
      refine isRoot_of_rootD_eq n _ hfbwf ra hrban ?_
      rw [hroots ra hrban, hrootDra]
    have hisb : isRoot (find_set (find_set g.parent.length g.parent a).1.length
        (find_set g.parent.length g.parent a).1 b).1 rb := by
      refine isRoot_of_rootD_eq n _ hfbwf rb hrbbn ?_
      rw [hroots rb hrbbn, hrootDrb]
    have hlroot : isRoot (find_set (find_set g.parent.length g.parent a).1.length
        (find_set g.parent.length g.parent a).1 b).1 l := by
      rw [hl]; split <;> assumption
    have hsroot : isRoot (find_set (find_set g.parent.length g.parent a).1.length
        (find_set g.parent.length g.parent a).1 b).1 s := by
      rw [hs]; split <;> assumption
    have hlltn : l < n := by rw [hl]; split <;> assumption
    have hsltn : s < n := by rw [hs]; split <;> assumption
    have hlnes : l ≠ s := by
      rw [hl, hs]
      by_cases hcmp : g.rnk.getD ra 0 < g.rnk.getD rb 0
      · rw [if_pos hcmp, if_pos hcmp]
        exact heq
      · rw [if_neg hcmp, if_neg hcmp]
        exact fun hc => heq hc.symm
    obtain ⟨hwf3, hroots3⟩ :=
      rootD_link_spec n _ hfbwf l s hlroot hsroot hlltn hsltn hlnes
    have hset : ((find_set (find_set g.parent.length g.parent a).1.length
          (find_set g.parent.length g.parent a).1 b).1.set
            (if g.rnk.getD ra 0 < g.rnk.getD rb 0 then ra else rb)
            (if g.rnk.getD ra 0 < g.rnk.getD rb 0 then rb else ra))
        = ((find_set (find_set g.parent.length g.parent a).1.length
          (find_set g.parent.length g.parent a).1 b).1.set l s) := by
      rw [hl, hs]
    refine ⟨?_, ?_, by simp [heq], ?_, ?_, ?_⟩
    · rw [hset]
      exact hwf3
    · have hrnklen : ∀ (c : Prop) (inst : Decidable c) (x v : Nat),
          (@ite _ c inst (g.rnk.set x v) g.rnk).length = n := by
        intro c inst x v
        split <;> simp [hrl]
      exact hrnklen _ _ _ _
    · intro x hx
      rw [hset, hroots3 x hx, hroots x hx]
      by_cases hc : rootD g.parent x = l
      · rw [if_pos hc, if_pos ⟨heq, hc⟩]
      · rw [if_neg hc, if_neg (fun hcon => hc hcon.2)]
    · intro _
      rw [hset]
      refine pstep_set_self _ l s ?_
      rw [hfbwf.len]
      exact hlltn
    · by_cases hcmp : g.rnk.getD ra 0 < g.rnk.getD rb 0
      · simp only [if_pos hcmp]
        rw [if_neg (show ¬ g.rnk.getD rb 0 = g.rnk.getD ra 0 by omega),
            if_neg (show ¬ (ra ≠ rb ∧ g.rnk.getD ra 0 = g.rnk.getD rb 0) from
              fun hc => absurd hc.2 (by omega))]
      · simp only [if_neg hcmp]
        by_cases htie : g.rnk.getD ra 0 = g.rnk.getD rb 0
        · rw [if_pos htie, if_pos ⟨heq, htie⟩]
        · rw [if_neg htie, if_neg (fun hc => htie hc.2)]


/-! ### Claim C6: union-find behaviour and the transitive-closure semantics -/

theorem ufInit_pstep (n : Nat) (i : Nat) (hi : i < n) : pstep (List.range n) i = i := by
  unfold pstep
  rw [getD_lt _ i i (by simpa using hi)]
  simp

theorem ufInit_WF (n : Nat) : WFuf n (List.range n) :=
  ⟨List.length_range n, fun i hi => by rw [ufInit_pstep n i hi]; exact hi,
   fun i hi => ⟨0, by simpa [isRoot] using ufInit_pstep n i hi⟩⟩

theorem ufInit_rootD (n : Nat) (i : Nat) (hi : i < n) : rootD (List.range n) i = i :=
  isRoot_rootD_self _ i (ufInit_pstep n i hi)

theorem eqvGen_nil (x y : Nat) :
    Relation.EqvGen (fun u v => (u, v) ∈ ([] : List (Nat × Nat))) x y ↔ x = y := by
  constructor
  · intro h
    induction h with
    | rel u v huv => simp at huv
    | refl u => rfl
    | symm u v _ ih => exact ih.symm
    | trans u v w _ _ ih1 ih2 => exact ih1.trans ih2
  · rintro rfl
    exact Relation.EqvGen.refl x

theorem eqvGen_mono_append (U V : List (Nat × Nat)) (x y : Nat)
    (h : Relation.EqvGen (fun u v => (u, v) ∈ U) x y) :
    Relation.EqvGen (fun u v => (u, v) ∈ U ++ V) x y :=
  Relation.EqvGen.mono (fun u v huv => by simp [huv]) h

theorem closure_step (n : Nat) (g : Graph) (hwf : WFuf n g.parent)
    (hrl : g.rnk.length = n) (U : List (Nat × Nat))
    (hU : ∀ ab ∈ U, ab.1 < n ∧ ab.2 < n)
    (hinv : ∀ x y, x < n → y < n →
      (rootD g.parent x = rootD g.parent y ↔
        Relation.EqvGen (fun u v => (u, v) ∈ U) x y))
    (a b : Nat) (ha : a < n) (hb : b < n) :
    WFuf n (union_set g a b).1.parent ∧
    (union_set g a b).1.rnk.length = n ∧
    ∀ x y, x < n → y < n →
      (rootD (union_set g a b).1.parent x = rootD (union_set g a b).1.parent y ↔
       Relation.EqvGen (fun u v => (u, v) ∈ U ++ [(a, b)]) x y) := by
  obtain ⟨hwf2, hrl2, hff, hdesc, hatt, hrnk⟩ :=
    union_set_spec n g hwf hrl a b ha hb (rootD g.parent a) (rootD g.parent b)
      (if g.rnk.getD (rootD g.parent a) 0 < g.rnk.getD (rootD g.parent b) 0
       then rootD g.parent b else rootD g.parent a)
      (if g.rnk.getD (rootD g.parent a) 0 < g.rnk.getD (rootD g.parent b) 0
       then rootD g.parent a else rootD g.parent b)
      rfl rfl rfl rfl
  refine ⟨hwf2, hrl2, ?_⟩
  intro x y hx hy
  have hpair : ((if g.rnk.getD (rootD g.parent a) 0 < g.rnk.getD (rootD g.parent b) 0
       then rootD g.parent a else rootD g.parent b) = rootD g.parent a ∧
      (if g.rnk.getD (rootD g.parent a) 0 < g.rnk.getD (rootD g.parent b) 0
       then rootD g.parent b else rootD g.parent a) = rootD g.parent b) ∨
      ((if g.rnk.getD (rootD g.parent a) 0 < g.rnk.getD (rootD g.parent b) 0
       then rootD g.parent a else rootD g.parent b) = rootD g.parent b ∧
      (if g.rnk.getD (rootD g.parent a) 0 < g.rnk.getD (rootD g.parent b) 0
       then rootD g.parent b else rootD g.parent a) = rootD g.parent a) := by
    by_cases hcmp : g.rnk.getD (rootD g.parent a) 0 < g.rnk.getD (rootD g.parent b) 0
    · left
      rw [if_pos hcmp, if_pos hcmp]
      exact ⟨rfl, rfl⟩
    · right
      rw [if_neg hcmp, if_neg hcmp]
      exact ⟨rfl, rfl⟩
  constructor
  · intro hxy
    rw [hdesc x hx, hdesc y hy] at hxy
    by_cases hrxy : rootD g.parent x = rootD g.parent y
    · exact eqvGen_mono_append U [(a, b)] x y ((hinv x y hx hy).mp hrxy)
    · have hab : Relation.EqvGen (fun u v => (u, v) ∈ U ++ [(a, b)]) a b :=
        Relation.EqvGen.rel a b (by simp)
      have hchain : ∀ x2 y2, x2 < n → y2 < n →
          rootD g.parent x2 = rootD g.parent a → rootD g.parent y2 = rootD g.parent b →
          Relation.EqvGen (fun u v => (u, v) ∈ U ++ [(a, b)]) x2 y2 := by
        intro x2 y2 hx2 hy2 hxa hyb
        refine Relation.EqvGen.trans x2 a y2
          (eqvGen_mono_append U [(a, b)] x2 a ((hinv x2 a hx2 ha).mp hxa)) ?_
        exact Relation.EqvGen.trans a b y2 hab
          (Relation.EqvGen.symm y2 b
            (eqvGen_mono_append U [(a, b)] y2 b ((hinv y2 b hy2 hb).mp hyb)))
      by_cases hcx : rootD g.parent a ≠ rootD g.parent b ∧ rootD g.parent x =
          (if g.rnk.getD (rootD g.parent a) 0 < g.rnk.getD (rootD g.parent b) 0
           then rootD g.parent a else rootD g.parent b)
      · rw [if_pos hcx] at hxy
        by_cases hcy : rootD g.parent a ≠ rootD g.parent b ∧ rootD g.parent y =
            (if g.rnk.getD (rootD g.parent a) 0 < g.rnk.getD (rootD g.parent b) 0
             then rootD g.parent a else rootD g.parent b)
        · exact absurd (hcx.2.trans hcy.2.symm) hrxy
        · rw [if_neg hcy] at hxy
          rcases hpair with ⟨hpl, hps⟩ | ⟨hpl, hps⟩
          · exact hchain x y hx hy (hcx.2.trans hpl) (hxy.symm.trans hps)
          · exact Relation.EqvGen.symm y x
              (hchain y x hy hx (hxy.symm.trans hps) (hcx.2.trans hpl))
      · rw [if_neg hcx] at hxy
        by_cases hcy : rootD g.parent a ≠ rootD g.parent b ∧ rootD g.parent y =
            (if g.rnk.getD (rootD g.parent a) 0 < g.rnk.getD (rootD g.parent b) 0
             then rootD g.parent a else rootD g.parent b)
        · rw [if_pos hcy] at hxy
          rcases hpair with ⟨hpl, hps⟩ | ⟨hpl, hps⟩
          · exact Relation.EqvGen.symm y x
              (hchain y x hy hx (hcy.2.trans hpl) (hxy.trans hps))
          · exact hchain x y hx hy (hxy.trans hps) (hcy.2.trans hpl)
        · rw [if_neg hcy] at hxy
          exact absurd hxy hrxy
  · intro hxy
    rw [hdesc x hx, hdesc y hy]
    have key : ∀ u v, Relation.EqvGen (fun u2 v2 => (u2, v2) ∈ U ++ [(a, b)]) u v →
        (if rootD g.parent a ≠ rootD g.parent b ∧ rootD g.parent u =
            (if g.rnk.getD (rootD g.parent a) 0 < g.rnk.getD (rootD g.parent b) 0
             then rootD g.parent a else rootD g.parent b)
         then (if g.rnk.getD (rootD g.parent a) 0 < g.rnk.getD (rootD g.parent b) 0
               then rootD g.parent b else rootD g.parent a)
         else rootD g.parent u) =
        (if rootD g.parent a ≠ rootD g.parent b ∧ rootD g.parent v =
            (if g.rnk.getD (rootD g.parent a) 0 < g.rnk.getD (rootD g.parent b) 0
             then rootD g.parent a else rootD g.parent b)
         then (if g.rnk.getD (rootD g.parent a) 0 < g.rnk.getD (rootD g.parent b) 0
               then rootD g.parent b else rootD g.parent a)
         else rootD g.parent v) := by
      intro u v huv
      induction huv with
      | rel u v huv =>
          rcases List.mem_append.mp huv with hmem | hmem
          · have hu : u < n := (hU (u, v) hmem).1
            have hv : v < n := (hU (u, v) hmem).2
            have : rootD g.parent u = rootD g.parent v := (hinv u v hu hv).mpr
              (Relation.EqvGen.rel u v hmem)
            rw [this]
          · have hav : u = a ∧ v = b := by simpa using hmem
            obtain ⟨rfl, rfl⟩ := hav
            by_cases heqr : rootD g.parent u = rootD g.parent v
            · rw [heqr]
            · by_cases hcmp : g.rnk.getD (rootD g.parent u) 0 <
                  g.rnk.getD (rootD g.parent v) 0
              · simp only [if_pos hcmp]
                rw [if_pos ⟨heqr, trivial⟩, ite_self]
              · simp only [if_neg hcmp]
                rw [if_neg (fun hc => heqr hc.2), if_pos ⟨heqr, trivial⟩]
      | refl u => rfl
      | symm u v h2 ih => exact ih.symm
      | trans u v w h1 h2 ih1 ih2 => exact ih1.trans ih2
    exact key x y hxy


theorem ufAfter_append (n : Nat) (U : List (Nat × Nat)) (ab : Nat × Nat) :
    ufAfter n (U ++ [ab]) = (union_set (ufAfter n U) ab.1 ab.2).1 := by
  unfold ufAfter applyUnions
  rw [List.foldl_append]
  rfl

theorem applyUnions_spec (n : Nat) : ∀ (U : List (Nat × Nat)),
    (∀ ab ∈ U, ab.1 < n ∧ ab.2 < n) →
    WFuf n (ufAfter n U).parent ∧ (ufAfter n U).rnk.length = n ∧
    ∀ x y, x < n → y < n →
      (rootD (ufAfter n U).parent x = rootD (ufAfter n U).parent y ↔
       Relation.EqvGen (fun u v => (u, v) ∈ U) x y) := by
  intro U
  induction U using List.reverseRecOn with
  | nil =>
      intro _
      refine ⟨ufInit_WF n, by simp [ufAfter, applyUnions, ufInit], ?_⟩
      intro x y hx hy
      show rootD (List.range n) x = rootD (List.range n) y ↔ _
      rw [ufInit_rootD n x hx, ufInit_rootD n y hy, eqvGen_nil]
  | append_singleton U ab ih =>
      intro hU
      have hU1 : ∀ p ∈ U, p.1 < n ∧ p.2 < n :=
        fun p hp => hU p (List.mem_append.mpr (Or.inl hp))
      have hab : ab.1 < n ∧ ab.2 < n := hU ab (by simp)
      obtain ⟨hwf, hrl, hinv⟩ := ih hU1
      obtain ⟨hwf2, hrl2, hinv2⟩ :=
        closure_step n (ufAfter n U) hwf hrl U hU1 hinv ab.1 ab.2 hab.1 hab.2
      rw [ufAfter_append]
      exact ⟨hwf2, hrl2, hinv2⟩

/-- Claim C6: starting from `init(n)` and any sequence `U` of in-range
unions, `union_set a b` returns `false` exactly when `a` and `b` already
share a representative, and then leaves the partition unchanged; otherwise
it returns `true`, attaches the lower-rank root under the higher-rank root
(incrementing the surviving root's rank by one exactly on a rank tie),
merges exactly the two components of `a` and `b`, and in all cases the
resulting components coincide with the naive reflexive-symmetric-transitive
closure of all unions performed so far. -/
theorem C6_theorem (n : Nat) (U : List (Nat × Nat))
    (hU : ∀ ab ∈ U, ab.1 < n ∧ ab.2 < n) (a b : Nat) (ha : a < n) (hb : b < n) :
    ((union_set (ufAfter n U) a b).2 = false ↔ sameSet (ufAfter n U) a b) ∧
    ((union_set (ufAfter n U) a b).2 = false →
      ∀ x y, x < n → y < n →
        (sameSet (union_set (ufAfter n U) a b).1 x y ↔ sameSet (ufAfter n U) x y)) ∧
    ((union_set (ufAfter n U) a b).2 = true →
      pstep (union_set (ufAfter n U) a b).1.parent (loser (ufAfter n U) a b) =
        winner (ufAfter n U) a b ∧
      (union_set (ufAfter n U) a b).1.rnk =
        (if (ufAfter n U).rnk.getD (rootD (ufAfter n U).parent a) 0 =
            (ufAfter n U).rnk.getD (rootD (ufAfter n U).parent b) 0
         then (ufAfter n U).rnk.set (rootD (ufAfter n U).parent a)
            ((ufAfter n U).rnk.getD (rootD (ufAfter n U).parent a) 0 + 1)
         else (ufAfter n U).rnk) ∧
      ∀ x, x < n → rootD (union_set (ufAfter n U) a b).1.parent x =
        (if rootD (ufAfter n U).parent x = loser (ufAfter n U) a b
         then winner (ufAfter n U) a b else rootD (ufAfter n U).parent x)) ∧
    (∀ x y, x < n → y < n →
      (sameSet (union_set (ufAfter n U) a b).1 x y ↔
       Relation.EqvGen (fun u v => (u, v) ∈ U ++ [(a, b)]) x y)) := by
  obtain ⟨hwf, hrl, hinv⟩ := applyUnions_spec n U hU
  obtain ⟨hwf2, hrl2, hff, hdesc, hatt, hrnk⟩ :=
    union_set_spec n (ufAfter n U) hwf hrl a b ha hb
      (rootD (ufAfter n U).parent a) (rootD (ufAfter n U).parent b)
      (winner (ufAfter n U) a b) (loser (ufAfter n U) a b) rfl rfl rfl rfl
  obtain ⟨_, _, hclo⟩ := closure_step n (ufAfter n U) hwf hrl U hU hinv a b ha hb
  refine ⟨hff, ?_, ?_, ?_⟩
  · intro hfalse x y hx hy
    have heq : rootD (ufAfter n U).parent a = rootD (ufAfter n U).parent b :=
      hff.mp hfalse
    unfold sameSet
    rw [hdesc x hx, hdesc y hy,
        if_neg (fun hc => hc.1 heq), if_neg (fun hc => hc.1 heq)]
  · intro htrue
    have hne : rootD (ufAfter n U).parent a ≠ rootD (ufAfter n U).parent b := by
      intro hcon
      rw [hff.mpr hcon] at htrue
      exact Bool.false_ne_true htrue
    refine ⟨hatt hne, ?_, ?_⟩
    · rw [hrnk]
      by_cases htie : (ufAfter n U).rnk.getD (rootD (ufAfter n U).parent a) 0 =
          (ufAfter n U).rnk.getD (rootD (ufAfter n U).parent b) 0
      · rw [if_pos ⟨hne, htie⟩, if_pos htie]
      · rw [if_neg (fun hc => htie hc.2), if_neg htie]
    · intro x hx
      rw [hdesc x hx]
      by_cases hcl : rootD (ufAfter n U).parent x = loser (ufAfter n U) a b
      · rw [if_pos ⟨hne, hcl⟩, if_pos hcl]
      · rw [if_neg (fun hc => hcl hc.2), if_neg hcl]
  · intro x y hx hy
    exact hclo x y hx hy

/-- Claim C6 witness: `C6_theorem` at `n = 2`, no prior unions, `a = 0`,
`b = 1`. -/
theorem C6_witness :
    ((union_set (ufAfter 2 []) 0 1).2 = false ↔ sameSet (ufAfter 2 []) 0 1) :=
  (C6_theorem 2 [] (by simp) 0 1 (by decide) (by decide)).1


/-! ### Claim C7: make_set analysis and the forest invariant -/

theorem msFold_pair : ∀ (V : List (String × Int)) (p r : List Nat),
    V.foldl (fun pr kv => (pr.1.set kv.2.toNat kv.2.toNat, pr.2.set kv.2.toNat 0)) (p, r)
    = (V.foldl (fun q kv => q.set kv.2.toNat kv.2.toNat) p,
       V.foldl (fun q kv => q.set kv.2.toNat 0) r) := by
  intro V
  induction V with
  | nil => intro p r; rfl
  | cons kv rest ih => intro p r; exact ih _ _

theorem pfold_length : ∀ (V : List (String × Int)) (p : List Nat),
    (V.foldl (fun q kv => q.set kv.2.toNat kv.2.toNat) p).length = p.length := by
  intro V
  induction V with
  | nil => intro p; rfl
  | cons kv rest ih => intro p; rw [List.foldl_cons, ih, List.length_set]

theorem rfold_length : ∀ (V : List (String × Int)) (r : List Nat),
    (V.foldl (fun q kv => q.set kv.2.toNat 0) r).length = r.length := by
  intro V
  induction V with
  | nil => intro r; rfl
  | cons kv rest ih => intro r; rw [List.foldl_cons, ih, List.length_set]

theorem pfold_not_mem : ∀ (V : List (String × Int)) (p : List Nat) (i d : Nat),
    (∀ kv ∈ V, kv.2.toNat ≠ i) →
    (V.foldl (fun q kv => q.set kv.2.toNat kv.2.toNat) p).getD i d = p.getD i d := by
  intro V
  induction V with
  | nil => intro p i d _; rfl
  | cons kv rest ih =>
      intro p i d hno
      rw [List.foldl_cons, ih _ i d (fun kv2 hm => hno kv2 (List.mem_cons_of_mem kv hm)),
          getD_set_ne p _ i _ d (hno kv (List.mem_cons_self kv rest))]

theorem rfold_not_mem : ∀ (V : List (String × Int)) (r : List Nat) (i d : Nat),
    (∀ kv ∈ V, kv.2.toNat ≠ i) →
    (V.foldl (fun q kv => q.set kv.2.toNat 0) r).getD i d = r.getD i d := by
  intro V
  induction V with
  | nil => intro r i d _; rfl
  | cons kv rest ih =>
      intro r i d hno
      rw [List.foldl_cons, ih _ i d (fun kv2 hm => hno kv2 (List.mem_cons_of_mem kv hm)),
          getD_set_ne r _ i _ d (hno kv (List.mem_cons_self kv rest))]

theorem pfold_mem : ∀ (V : List (String × Int)) (p : List Nat) (i d : Nat),
    (∃ kv ∈ V, kv.2.toNat = i) → i < p.length →
    (V.foldl (fun q kv => q.set kv.2.toNat kv.2.toNat) p).getD i d = i := by
  intro V
  induction V with
  | nil =>
      intro p i d hex _
      simp at hex
  | cons kv rest ih =>
      intro p i d hex hlen
      rw [List.foldl_cons]
      by_cases hrest : ∃ kv2 ∈ rest, kv2.2.toNat = i
      · exact ih _ i d hrest (by simpa using hlen)
      · have hkv : kv.2.toNat = i := by
          obtain ⟨kv2, hkv2, he⟩ := hex
          rcases List.mem_cons.mp hkv2 with rfl | hm
          · exact he
          · exact absurd ⟨kv2, hm, he⟩ hrest
        push_neg at hrest
        rw [pfold_not_mem rest _ i d hrest, hkv, getD_set_self p i i d hlen]

theorem rfold_mem : ∀ (V : List (String × Int)) (r : List Nat) (i d : Nat),
    (∃ kv ∈ V, kv.2.toNat = i) → i < r.length →
    (V.foldl (fun q kv => q.set kv.2.toNat 0) r).getD i d = 0 := by
  intro V
  induction V with
  | nil =>
      intro r i d hex _
      simp at hex
  | cons kv rest ih =>
      intro r i d hex hlen
      rw [List.foldl_cons]
      by_cases hrest : ∃ kv2 ∈ rest, kv2.2.toNat = i
      · exact ih _ i d hrest (by simpa using hlen)
      · have hkv : kv.2.toNat = i := by
          obtain ⟨kv2, hkv2, he⟩ := hex
          rcases List.mem_cons.mp hkv2 with rfl | hm
          · exact he
          · exact absurd ⟨kv2, hm, he⟩ hrest
        push_neg at hrest
        rw [rfold_not_mem rest _ i d hrest, hkv, getD_set_self r i 0 d hlen]

theorem resize_length (l : List Nat) (n : Nat) : (resize l n).length = n := by
  unfold resize
  rw [List.length_append, List.length_take, List.length_replicate]
  omega

theorem make_set_parent_eq (g : Graph) : (make_set g).parent =
    g.vertices.foldl (fun q kv => q.set kv.2.toNat kv.2.toNat)
      (resize g.parent g.numVertices.toNat) := by
  unfold make_set
  dsimp only
  rw [msFold_pair]

theorem make_set_rnk_eq (g : Graph) : (make_set g).rnk =
    g.vertices.foldl (fun q kv => q.set kv.2.toNat 0)
      (resize g.rnk g.numVertices.toNat) := by
  unfold make_set
  dsimp only
  rw [msFold_pair]

theorem make_set_parent_length (g : Graph) :
    (make_set g).parent.length = g.numVertices.toNat := by
  rw [make_set_parent_eq, pfold_length, resize_length]

theorem make_set_rnk_length (g : Graph) :
    (make_set g).rnk.length = g.numVertices.toNat := by
  rw [make_set_rnk_eq, rfold_length, resize_length]

theorem make_set_pstep_reg (g : Graph) (i : Nat)
    (hreg : ∃ kv ∈ g.vertices, kv.2.toNat = i) :
    pstep (make_set g).parent i = i := by
  by_cases hi : i < g.numVertices.toNat
  · unfold pstep
    rw [make_set_parent_eq]
    exact pfold_mem g.vertices _ i i hreg (by rw [resize_length]; exact hi)
  · unfold pstep
    refine getD_oob _ i i ?_
    rw [make_set_parent_length]
    omega

theorem make_set_rnk_reg (g : Graph) (i : Nat)
    (hreg : ∃ kv ∈ g.vertices, kv.2.toNat = i) :
    (make_set g).rnk.getD i 0 = 0 := by
  by_cases hi : i < g.numVertices.toNat
  · rw [make_set_rnk_eq]
    exact rfold_mem g.vertices _ i 0 hreg (by rw [resize_length]; exact hi)
  · refine getD_oob _ i 0 ?_
    rw [make_set_rnk_length]
    omega

theorem make_set_fresh_pstep (g : Graph) (hp : g.parent = []) (i : Nat)
    (hi : i < g.numVertices.toNat) :
    pstep (make_set g).parent i = i ∨ pstep (make_set g).parent i = 0 := by
  by_cases hreg : ∃ kv ∈ g.vertices, kv.2.toNat = i
  · exact Or.inl (make_set_pstep_reg g i hreg)
  · right
    push_neg at hreg
    unfold pstep
    rw [make_set_parent_eq, pfold_not_mem g.vertices _ i i hreg, hp]
    show (resize [] g.numVertices.toNat).getD i i = 0
    unfold resize
    rw [getD_lt _ i i (by simpa using hi)]
    simp [List.getElem_replicate]

theorem make_set_fresh_WF (g : Graph) (hp : g.parent = []) :
    WFuf g.numVertices.toNat (make_set g).parent := by
  refine ⟨make_set_parent_length g, ?_, ?_⟩
  · intro i hi
    rcases make_set_fresh_pstep g hp i hi with he | he
    · rw [he]; exact hi
    · rw [he]; omega
  · intro i hi
    have h0 : pstep (make_set g).parent 0 = 0 := by
      rcases make_set_fresh_pstep g hp 0 (by omega) with he | he
      · exact he
      · exact he
    refine ⟨1, ?_⟩
    simp only [Function.iterate_one]
    rcases make_set_fresh_pstep g hp i hi with he | he
    · unfold isRoot
      rw [he, he]
    · unfold isRoot
      rw [he, h0]

theorem compN_congr (p q : List Nat) (n : Nat)
    (h : ∀ i, i < n → rootD p i = rootD q i) : compN p n = compN q n := by
  unfold compN
  congr 1
  refine Finset.image_congr ?_
  intro x hx
  simp only [Finset.coe_range, Set.mem_Iio] at hx
  exact h x hx

theorem compN_le (p : List Nat) (n : Nat) : compN p n ≤ n :=
  le_trans Finset.card_image_le (by simp)

theorem compN_collapse (p p2 : List Nat) (n l s : Nat) (hl : l < n) (hs : s < n)
    (hrl : rootD p l = l) (hrs : rootD p s = s) (hne : l ≠ s)
    (hdesc : ∀ x, x < n → rootD p2 x = if rootD p x = l then s else rootD p x) :
    compN p2 n + 1 = compN p n := by
  have himg : (Finset.range n).image (rootD p2)
      = ((Finset.range n).image (rootD p)).erase l := by
    ext y
    simp only [Finset.mem_image, Finset.mem_erase, Finset.mem_range]
    constructor
    · rintro ⟨x, hx, rfl⟩
      rw [hdesc x hx]
      by_cases hc : rootD p x = l
      · rw [if_pos hc]
        exact ⟨fun hcon => hne hcon.symm, s, hs, hrs⟩
      · rw [if_neg hc]
        exact ⟨hc, x, hx, rfl⟩
    · rintro ⟨hyl, x, hx, rfl⟩
      refine ⟨x, hx, ?_⟩
      rw [hdesc x hx, if_neg hyl]
  have hmem : l ∈ (Finset.range n).image (rootD p) :=
    Finset.mem_image.mpr ⟨l, by simpa using hl, hrl⟩
  have hpos : 0 < ((Finset.range n).image (rootD p)).card :=
    Finset.card_pos.mpr ⟨l, hmem⟩
  unfold compN
  rw [himg, Finset.card_erase_of_mem hmem]
  omega

theorem getIndex_mem (g : Graph) (nm : String) (h : 0 ≤ getIndex g nm) :
    ∃ kv ∈ g.vertices, kv.2 = getIndex g nm := by
  cases hf : g.vertices.find? (fun kv => kv.1 == nm) with
  | none =>
      exfalso
      have hneg : getIndex g nm = -1 := by
        unfold getIndex
        rw [hf]
      omega
  | some kv =>
      have hval : getIndex g nm = kv.2 := by
        unfold getIndex
        rw [hf]
      rw [hval]
      exact ⟨kv, List.mem_of_find?_eq_some hf, rfl⟩

theorem mstLoop_forest (n : Nat) : ∀ (es : List Edge) (g : Graph) (c : Int),
    WFuf n g.parent → g.rnk.length = n →
    (∀ nm, 0 ≤ getIndex g nm → (getIndex g nm).toNat < n) →
    WFuf n (mstLoop g es c).1.parent ∧
    (mstLoop g es c).2.1.length + compN (mstLoop g es c).1.parent n
      = compN g.parent n := by
  intro es
  induction es with
  | nil =>
      intro g c hwf hrl hS
      exact ⟨hwf, by simp [mstLoop]⟩
  | cons e rest ih =>
      intro g c hwf hrl hS
      unfold mstLoop
      dsimp only
      by_cases hab : 0 ≤ getIndex g e.src ∧ 0 ≤ getIndex g e.dst
      · rw [if_pos hab]
        have han : (getIndex g e.src).toNat < n := hS e.src hab.1
        have hbn : (getIndex g e.dst).toNat < n := hS e.dst hab.2
        obtain ⟨hwf2, hrl2, hff, hdesc, hatt, hrnk⟩ :=
          union_set_spec n g hwf hrl (getIndex g e.src).toNat (getIndex g e.dst).toNat
            han hbn
            (rootD g.parent (getIndex g e.src).toNat)
            (rootD g.parent (getIndex g e.dst).toNat)
            (if g.rnk.getD (rootD g.parent (getIndex g e.src).toNat) 0 <
                g.rnk.getD (rootD g.parent (getIndex g e.dst).toNat) 0
             then rootD g.parent (getIndex g e.dst).toNat
             else rootD g.parent (getIndex g e.src).toNat)
            (if g.rnk.getD (rootD g.parent (getIndex g e.src).toNat) 0 <
                g.rnk.getD (rootD g.parent (getIndex g e.dst).toNat) 0
             then rootD g.parent (getIndex g e.src).toNat
             else rootD g.parent (getIndex g e.dst).toNat)
            rfl rfl rfl rfl
        have hSv : ∀ nm, 0 ≤ getIndex
            (union_set g (getIndex g e.src).toNat (getIndex g e.dst).toNat).1 nm →
            (getIndex (union_set g (getIndex g e.src).toNat (getIndex g e.dst).toNat).1
              nm).toNat < n := by
          intro nm
          rw [getIndex_congr _ g (union_set_vertices g _ _) nm]
          exact hS nm
        cases hu2 : (union_set g (getIndex g e.src).toNat (getIndex g e.dst).toNat).2
        · obtain ⟨ihwf, ihcount⟩ :=
            ih (union_set g (getIndex g e.src).toNat (getIndex g e.dst).toNat).1 c
              hwf2 hrl2 hSv
          have heq : rootD g.parent (getIndex g e.src).toNat
              = rootD g.parent (getIndex g e.dst).toNat := hff.mp hu2
          have hcomp : compN
              (union_set g (getIndex g e.src).toNat (getIndex g e.dst).toNat).1.parent n
              = compN g.parent n := by
            refine compN_congr _ _ n ?_
            intro i hi
            rw [hdesc i hi, if_neg (fun hc => hc.1 heq)]
          simp only [hu2, Bool.false_eq_true, if_false]
          refine ⟨ihwf, ?_⟩
          rw [ihcount, hcomp]
        · obtain ⟨ihwf, ihcount⟩ :=
            ih (union_set g (getIndex g e.src).toNat (getIndex g e.dst).toNat).1
              (c + e.weight) hwf2 hrl2 hSv
          have hne : rootD g.parent (getIndex g e.src).toNat
              ≠ rootD g.parent (getIndex g e.dst).toNat := by
            intro hcon
            rw [hff.mpr hcon] at hu2
            exact Bool.false_ne_true hu2
          have hlroot : rootD g.parent
              (if g.rnk.getD (rootD g.parent (getIndex g e.src).toNat) 0 <
                  g.rnk.getD (rootD g.parent (getIndex g e.dst).toNat) 0
               then rootD g.parent (getIndex g e.src).toNat
               else rootD g.parent (getIndex g e.dst).toNat) =
              (if g.rnk.getD (rootD g.parent (getIndex g e.src).toNat) 0 <
                  g.rnk.getD (rootD g.parent (getIndex g e.dst).toNat) 0
               then rootD g.parent (getIndex g e.src).toNat
               else rootD g.parent (getIndex g e.dst).toNat) := by
            split
            · exact rootD_rootD n g.parent hwf _ han
            · exact rootD_rootD n g.parent hwf _ hbn
          have hsroot : rootD g.parent
              (if g.rnk.getD (rootD g.parent (getIndex g e.src).toNat) 0 <
                  g.rnk.getD (rootD g.parent (getIndex g e.dst).toNat) 0
               then rootD g.parent (getIndex g e.dst).toNat
               else rootD g.parent (getIndex g e.src).toNat) =
              (if g.rnk.getD (rootD g.parent (getIndex g e.src).toNat) 0 <
                  g.rnk.getD (rootD g.parent (getIndex g e.dst).toNat) 0
               then rootD g.parent (getIndex g e.dst).toNat
               else rootD g.parent (getIndex g e.src).toNat) := by
            split
            · exact rootD_rootD n g.parent hwf _ hbn
            · exact rootD_rootD n g.parent hwf _ han
          have hlltn : (if g.rnk.getD (rootD g.parent (getIndex g e.src).toNat) 0 <
                  g.rnk.getD (rootD g.parent (getIndex g e.dst).toNat) 0
               then rootD g.parent (getIndex g e.src).toNat
               else rootD g.parent (getIndex g e.dst).toNat) < n := by
            split
            · exact rootD_lt n g.parent hwf _ han
            · exact rootD_lt n g.parent hwf _ hbn
          have hsltn : (if g.rnk.getD (rootD g.parent (getIndex g e.src).toNat) 0 <
                  g.rnk.getD (rootD g.parent (getIndex g e.dst).toNat) 0
               then rootD g.parent (getIndex g e.dst).toNat
               else rootD g.parent (getIndex g e.src).toNat) < n := by
            split
            · exact rootD_lt n g.parent hwf _ hbn
            · exact rootD_lt n g.parent hwf _ han
          have hlnes : (if g.rnk.getD (rootD g.parent (getIndex g e.src).toNat) 0 <
                  g.rnk.getD (rootD g.parent (getIndex g e.dst).toNat) 0
               then rootD g.parent (getIndex g e.src).toNat
               else rootD g.parent (getIndex g e.dst).toNat) ≠
              (if g.rnk.getD (rootD g.parent (getIndex g e.src).toNat) 0 <
                  g.rnk.getD (rootD g.parent (getIndex g e.dst).toNat) 0
               then rootD g.parent (getIndex g e.dst).toNat
               else rootD g.parent (getIndex g e.src).toNat) := by
            split
            · exact hne
            · exact fun hc => hne hc.symm
          have hcomp : compN
              (union_set g (getIndex g e.src).toNat (getIndex g e.dst).toNat).1.parent n
              + 1 = compN g.parent n := by
            refine compN_collapse g.parent _ n _ _ hlltn hsltn hlroot hsroot hlnes ?_
            intro x hx
            rw [hdesc x hx]
            by_cases hc : rootD g.parent x =
                (if g.rnk.getD (rootD g.parent (getIndex g e.src).toNat) 0 <
                    g.rnk.getD (rootD g.parent (getIndex g e.dst).toNat) 0
                 then rootD g.parent (getIndex g e.src).toNat
                 else rootD g.parent (getIndex g e.dst).toNat)
            · rw [if_pos ⟨hne, hc⟩, if_pos hc]
            · rw [if_neg (fun hcon => hc hcon.2), if_neg hc]
          simp only [hu2, eq_self_iff_true, if_true, List.length_cons]
          refine ⟨ihwf, ?_⟩
          omega
      · rw [if_neg hab]
        exact ih g c hwf hrl hS




/-- Claim C7: the accepted edge set of the classic computation is a forest:
on a freshly constructed engine whose registered indices are in range, the
number of accepted edges plus the number of connected components among the
vertices referenced by edges is at most `V` — i.e. accepted ≤ V − #components. -/
theorem C7_theorem (g : Graph) (hp : g.parent = [])
    (hidx : ∀ kv ∈ g.vertices, 0 ≤ kv.2 ∧ kv.2 < g.numVertices) :
    (mst g).2.1.length +
      ((referencedIdx g).image (rootD (mst g).1.parent)).card
      ≤ g.numVertices.toNat := by
  have hwf1 : WFuf g.numVertices.toNat (make_set (sort g)).parent :=
    make_set_fresh_WF (sort g) (by rw [sort_parent]; exact hp)
  have hrl1 : (make_set (sort g)).rnk.length = g.numVertices.toNat :=
    make_set_rnk_length (sort g)
  have hS : ∀ nm, 0 ≤ getIndex (make_set (sort g)) nm →
      (getIndex (make_set (sort g)) nm).toNat < g.numVertices.toNat := by
    intro nm hge
    have hgi : getIndex (make_set (sort g)) nm = getIndex g nm :=
      getIndex_congr _ g (by rw [make_set_vertices, sort_vertices]) nm
    rw [hgi] at hge ⊢
    obtain ⟨kv, hkv, hval⟩ := getIndex_mem g nm hge
    obtain ⟨h0, hlt⟩ := hidx kv hkv
    omega
  obtain ⟨hwfF, hcount⟩ :=
    mstLoop_forest g.numVertices.toNat (make_set (sort g)).edges (make_set (sort g)) 0
      hwf1 hrl1 hS
  have hcount2 : (mst g).2.1.length + compN (mst g).1.parent g.numVertices.toNat
      = compN (make_set (sort g)).parent g.numVertices.toNat := hcount
  have hsub : referencedIdx g ⊆ Finset.range g.numVertices.toNat := by
    intro i hi
    unfold referencedIdx at hi
    rw [List.mem_toFinset, List.mem_flatten] at hi
    obtain ⟨l, hl, hil⟩ := hi
    rw [List.mem_map] at hl
    obtain ⟨e, he, rfl⟩ := hl
    rw [Finset.mem_range]
    rcases List.mem_append.mp hil with him | him
    · by_cases hc : 0 ≤ getIndex g e.src
      · rw [if_pos hc, List.mem_singleton] at him
        subst him
        obtain ⟨kv, hkv, hval⟩ := getIndex_mem g e.src hc
        obtain ⟨h0, hlt⟩ := hidx kv hkv
        omega
      · rw [if_neg hc] at him
        simp at him
    · by_cases hc : 0 ≤ getIndex g e.dst
      · rw [if_pos hc, List.mem_singleton] at him
        subst him
        obtain ⟨kv, hkv, hval⟩ := getIndex_mem g e.dst hc
        obtain ⟨h0, hlt⟩ := hidx kv hkv
        omega
      · rw [if_neg hc] at him
        simp at him
  have hmono : ((referencedIdx g).image (rootD (mst g).1.parent)).card
      ≤ compN (mst g).1.parent g.numVertices.toNat :=
    Finset.card_le_card (Finset.image_subset_image hsub)
  have hcle : compN (make_set (sort g)).parent g.numVertices.toNat
      ≤ g.numVertices.toNat := compN_le _ _
  omega

/-- Claim C7 witness: `C7_theorem` on the three-edge example engine; two
accepted edges plus one component is at most `V = 3`. -/
theorem C7_witness :
    (mst ⟨3, 3, [], [], [("A", 0), ("B", 1), ("C", 2)],
        [⟨"e1", 1, "A", "B"⟩, ⟨"e2", 2, "B", "C"⟩, ⟨"e3", 3, "A", "C"⟩]⟩).2.1.length +
      ((referencedIdx ⟨3, 3, [], [], [("A", 0), ("B", 1), ("C", 2)],
          [⟨"e1", 1, "A", "B"⟩, ⟨"e2", 2, "B", "C"⟩, ⟨"e3", 3, "A", "C"⟩]⟩).image
        (rootD (mst ⟨3, 3, [], [], [("A", 0), ("B", 1), ("C", 2)],
          [⟨"e1", 1, "A", "B"⟩, ⟨"e2", 2, "B", "C"⟩, ⟨"e3", 3, "A", "C"⟩]⟩).1.parent)).card
      ≤ 3 :=
  C7_theorem ⟨3, 3, [], [], [("A", 0), ("B", 1), ("C", 2)],
      [⟨"e1", 1, "A", "B"⟩, ⟨"e2", 2, "B", "C"⟩, ⟨"e3", 3, "A", "C"⟩]⟩ rfl (by decide)


/-! ### Claim C3: repeated invocations on a mutated engine -/

theorem closedS_set (S : Nat → Prop) (p : List Nat) (a r : Nat)
    (h : closedS S p) (hr : S r) : closedS S (p.set a r) := by
  intro i hi
  by_cases hia : i = a
  · subst hia
    by_cases hlen : i < p.length
    · rw [getD_set_self p i r i hlen]
      exact hr
    · rw [List.set_eq_of_length_le (by omega)]
      exact h i hi
  · rw [getD_set_ne p a i r i (fun hc => hia hc.symm)]
    exact h i hi

theorem agreeP_set (S : Nat → Prop) (p q : List Nat) (a r : Nat)
    (h : agreeP S p q) : agreeP S (p.set a r) (q.set a r) := by
  refine ⟨by simp [h.1], ?_⟩
  intro i hi
  by_cases hia : i = a
  · subst hia
    by_cases hlen : i < p.length
    · rw [getD_set_self p i r i hlen, getD_set_self q i r i (by rw [← h.1]; exact hlen)]
    · rw [List.set_eq_of_length_le (by omega),
          List.set_eq_of_length_le (by rw [← h.1]; omega)]
      exact h.2 i hi
  · rw [getD_set_ne p a i r i (fun hc => hia hc.symm),
        getD_set_ne q a i r i (fun hc => hia hc.symm)]
    exact h.2 i hi

theorem agreeR_set (S : Nat → Prop) (p q : List Nat) (a r : Nat)
    (h : agreeR S p q) : agreeR S (p.set a r) (q.set a r) := by
  refine ⟨by simp [h.1], ?_⟩
  intro i hi
  by_cases hia : i = a
  · subst hia
    by_cases hlen : i < p.length
    · rw [getD_set_self p i r 0 hlen, getD_set_self q i r 0 (by rw [← h.1]; exact hlen)]
    · rw [List.set_eq_of_length_le (by omega),
          List.set_eq_of_length_le (by rw [← h.1]; omega)]
      exact h.2 i hi
  · rw [getD_set_ne p a i r 0 (fun hc => hia hc.symm),
        getD_set_ne q a i r 0 (fun hc => hia hc.symm)]
    exact h.2 i hi

theorem find_agree (S : Nat → Prop) : ∀ (fuel : Nat) (p q : List Nat) (a : Nat),
    agreeP S p q → closedS S p → closedS S q → S a →
    (find_set fuel p a).2 = (find_set fuel q a).2 ∧
    S (find_set fuel p a).2 ∧
    agreeP S (find_set fuel p a).1 (find_set fuel q a).1 ∧
    closedS S (find_set fuel p a).1 ∧ closedS S (find_set fuel q a).1 := by
  intro fuel
  induction fuel with
  | zero =>
      intro p q a hag hcp hcq hSa
      exact ⟨rfl, hSa, hag, hcp, hcq⟩
  | succ fuel ih =>
      intro p q a hag hcp hcq hSa
      have hstep : pstep p a = pstep q a := hag.2 a hSa
      by_cases hroot : pstep p a = a
      · have hrootq : pstep q a = a := by rw [← hstep]; exact hroot
        have hr1 : find_set (fuel + 1) p a = (p, a) := by simp [find_set, hroot]
        have hr2 : find_set (fuel + 1) q a = (q, a) := by simp [find_set, hrootq]
        rw [hr1, hr2]
        exact ⟨rfl, hSa, hag, hcp, hcq⟩
      · have hrootq : ¬ pstep q a = a := by rw [← hstep]; exact hroot
        have hr1 : find_set (fuel + 1) p a =
            ((find_set fuel p (pstep p a)).1.set a (find_set fuel p (pstep p a)).2,
             (find_set fuel p (pstep p a)).2) := by
          simp [find_set, hroot]
        have hr2 : find_set (fuel + 1) q a =
            ((find_set fuel q (pstep q a)).1.set a (find_set fuel q (pstep q a)).2,
             (find_set fuel q (pstep q a)).2) := by
          simp [find_set, hrootq]
        rw [hr1, hr2, ← hstep]
        have hSpa : S (pstep p a) := hcp a hSa
        obtain ⟨ihr, ihS, ihag, ihcp, ihcq⟩ := ih p q (pstep p a) hag hcp hcq hSpa
        refine ⟨ihr, ihS, ?_, ?_, ?_⟩
        · rw [← ihr]
          exact agreeP_set S _ _ a _ ihag
        · exact closedS_set S _ a _ ihcp ihS
        · rw [← ihr]
          exact closedS_set S _ a _ ihcq ihS

theorem union_agree (S : Nat → Prop) (gA gB : Graph) (a b : Nat)
    (hag : agreeP S gA.parent gB.parent) (hcA : closedS S gA.parent)
    (hcB : closedS S gB.parent) (hrg : agreeR S gA.rnk gB.rnk)
    (hSa : S a) (hSb : S b) :
    (union_set gA a b).2 = (union_set gB a b).2 ∧
    agreeP S (union_set gA a b).1.parent (union_set gB a b).1.parent ∧
    closedS S (union_set gA a b).1.parent ∧ closedS S (union_set gB a b).1.parent ∧
    agreeR S (union_set gA a b).1.rnk (union_set gB a b).1.rnk := by
  unfold union_set
  dsimp only
  rw [show gB.parent.length = gA.parent.length from hag.1.symm]
  obtain ⟨hfr, hfS, hfag, hfcA, hfcB⟩ :=
    find_agree S gA.parent.length gA.parent gB.parent a hag hcA hcB hSa
  rw [show (find_set gA.parent.length gB.parent a).1.length
        = (find_set gA.parent.length gA.parent a).1.length from hfag.1.symm]
  obtain ⟨hfr2, hfS2, hfag2, hfcA2, hfcB2⟩ :=
    find_agree S (find_set gA.parent.length gA.parent a).1.length
      (find_set gA.parent.length gA.parent a).1
      (find_set gA.parent.length gB.parent a).1 b hfag hfcA hfcB hSb
  rw [← hfr, ← hfr2]
  by_cases heq : (find_set gA.parent.length gA.parent a).2 =
      (find_set (find_set gA.parent.length gA.parent a).1.length
        (find_set gA.parent.length gA.parent a).1 b).2
  · rw [if_pos heq, if_pos heq]
    exact ⟨rfl, hfag2, hfcA2, hfcB2, hrg⟩
  · rw [if_neg heq, if_neg heq]
    have hrv : gA.rnk.getD (find_set gA.parent.length gA.parent a).2 0
        = gB.rnk.getD (find_set gA.parent.length gA.parent a).2 0 := hrg.2 _ hfS
    have hrv2 : gA.rnk.getD (find_set (find_set gA.parent.length gA.parent a).1.length
          (find_set gA.parent.length gA.parent a).1 b).2 0
        = gB.rnk.getD (find_set (find_set gA.parent.length gA.parent a).1.length
          (find_set gA.parent.length gA.parent a).1 b).2 0 := hrg.2 _ hfS2
    rw [← hrv, ← hrv2]
    set ra2 := (find_set gA.parent.length gA.parent a).2 with hra2
    set rb2 := (find_set (find_set gA.parent.length gA.parent a).1.length
      (find_set gA.parent.length gA.parent a).1 b).2 with hrb2
    set aa := if gA.rnk.getD ra2 0 < gA.rnk.getD rb2 0 then rb2 else ra2 with haa
    set bb := if gA.rnk.getD ra2 0 < gA.rnk.getD rb2 0 then ra2 else rb2 with hbb
    have hSaa : S aa := by
      rw [haa]
      split
      · exact hfS2
      · exact hfS
    have hSbb : S bb := by
      rw [hbb]
      split
      · exact hfS
      · exact hfS2
    have hvaa : gA.rnk.getD aa 0 = gB.rnk.getD aa 0 := hrg.2 aa hSaa
    have hvbb : gA.rnk.getD bb 0 = gB.rnk.getD bb 0 := hrg.2 bb hSbb
    rw [← hvaa, ← hvbb]
    refine ⟨rfl, agreeP_set S _ _ bb aa hfag2, closedS_set S _ bb aa hfcA2 hSaa,
            closedS_set S _ bb aa hfcB2 hSaa, ?_⟩
    by_cases htie : gA.rnk.getD aa 0 = gA.rnk.getD bb 0
    · rw [if_pos htie, if_pos htie]
      exact agreeR_set S _ _ aa _ hrg
    · rw [if_neg htie, if_neg htie]
      exact hrg


theorem traceLoop_mstLoop (es : List Edge) : ∀ (g : Graph) (m r : List String) (c : Int),
    (traceLoop g es m r c).1 = (mstLoop g es c).1 ∧
    (traceLoop g es m r c).2.2 = (mstLoop g es c).2.2 := by
  induction es with
  | nil => intro g m r c; exact ⟨rfl, rfl⟩
  | cons e rest ih =>
      intro g m r c
      unfold traceLoop mstLoop
      dsimp only
      exact ⟨(ih _ _ _ _).1, (ih _ _ _ _).2⟩

theorem mstLoop_agree (S : Nat → Prop) : ∀ (es : List Edge) (gA gB : Graph) (c : Int),
    gA.vertices = gB.vertices →
    agreeP S gA.parent gB.parent → closedS S gA.parent → closedS S gB.parent →
    agreeR S gA.rnk gB.rnk →
    (∀ nm, 0 ≤ getIndex gA nm → S ((getIndex gA nm).toNat)) →
    (mstLoop gA es c).2 = (mstLoop gB es c).2 := by
  intro es
  induction es with
  | nil => intro gA gB c _ _ _ _ _ _; rfl
  | cons e rest ih =>
      intro gA gB c hv hag hcA hcB hrg hS
      unfold mstLoop
      have hgi : ∀ nm, getIndex gA nm = getIndex gB nm := getIndex_congr gA gB hv
      rw [← hgi e.src, ← hgi e.dst]
      dsimp only
      by_cases hab : 0 ≤ getIndex gA e.src ∧ 0 ≤ getIndex gA e.dst
      · rw [if_pos hab, if_pos hab]
        obtain ⟨hur, huag, hucA, hucB, hurg⟩ :=
          union_agree S gA gB (getIndex gA e.src).toNat (getIndex gA e.dst).toNat
            hag hcA hcB hrg (hS e.src hab.1) (hS e.dst hab.2)
        have hv2 : (union_set gA (getIndex gA e.src).toNat (getIndex gA e.dst).toNat).1.vertices
            = (union_set gB (getIndex gA e.src).toNat (getIndex gA e.dst).toNat).1.vertices := by
          rw [union_set_vertices, union_set_vertices]
          exact hv
        have hS2 : ∀ nm, 0 ≤ getIndex
            (union_set gA (getIndex gA e.src).toNat (getIndex gA e.dst).toNat).1 nm →
            S ((getIndex (union_set gA (getIndex gA e.src).toNat
              (getIndex gA e.dst).toNat).1 nm).toNat) := by
          intro nm
          rw [getIndex_congr _ gA (union_set_vertices gA _ _) nm]
          exact hS nm
        have ihres := ih
          (union_set gA (getIndex gA e.src).toNat (getIndex gA e.dst).toNat).1
          (union_set gB (getIndex gA e.src).toNat (getIndex gA e.dst).toNat).1
          (if (union_set gA (getIndex gA e.src).toNat (getIndex gA e.dst).toNat).2 = true
           then c + e.weight else c)
          hv2 huag hucA hucB hurg hS2
        rw [← hur, ihres]
      · rw [if_neg hab, if_neg hab]
        simp only [Bool.false_eq_true, if_false]
        rw [ih gA gB c hv hag hcA hcB hrg hS]

theorem traceLoop_agree (S : Nat → Prop) : ∀ (es : List Edge) (gA gB : Graph)
    (m r : List String) (c : Int),
    gA.vertices = gB.vertices →
    agreeP S gA.parent gB.parent → closedS S gA.parent → closedS S gB.parent →
    agreeR S gA.rnk gB.rnk →
    (∀ nm, 0 ≤ getIndex gA nm → S ((getIndex gA nm).toNat)) →
    (traceLoop gA es m r c).2 = (traceLoop gB es m r c).2 := by
  intro es
  induction es with
  | nil => intro gA gB m r c _ _ _ _ _ _; rfl
  | cons e rest ih =>
      intro gA gB m r c hv hag hcA hcB hrg hS
      unfold traceLoop
      have hgi : ∀ nm, getIndex gA nm = getIndex gB nm := getIndex_congr gA gB hv
      rw [← hgi e.src, ← hgi e.dst]
      dsimp only
      by_cases hab : 0 ≤ getIndex gA e.src ∧ 0 ≤ getIndex gA e.dst
      · rw [if_pos hab, if_pos hab]
        obtain ⟨hur, huag, hucA, hucB, hurg⟩ :=
          union_agree S gA gB (getIndex gA e.src).toNat (getIndex gA e.dst).toNat
            hag hcA hcB hrg (hS e.src hab.1) (hS e.dst hab.2)
        have hv2 : (union_set gA (getIndex gA e.src).toNat (getIndex gA e.dst).toNat).1.vertices
            = (union_set gB (getIndex gA e.src).toNat (getIndex gA e.dst).toNat).1.vertices := by
          rw [union_set_vertices, union_set_vertices]
          exact hv
        have hS2 : ∀ nm, 0 ≤ getIndex
            (union_set gA (getIndex gA e.src).toNat (getIndex gA e.dst).toNat).1 nm →
            S ((getIndex (union_set gA (getIndex gA e.src).toNat
              (getIndex gA e.dst).toNat).1 nm).toNat) := by
          intro nm
          rw [getIndex_congr _ gA (union_set_vertices gA _ _) nm]
          exact hS nm
        have ihres := ih
          (union_set gA (getIndex gA e.src).toNat (getIndex gA e.dst).toNat).1
          (union_set gB (getIndex gA e.src).toNat (getIndex gA e.dst).toNat).1
          (if (union_set gA (getIndex gA e.src).toNat (getIndex gA e.dst).toNat).2 = true
           then m ++ [e.id] else m)
          (if (union_set gA (getIndex gA e.src).toNat (getIndex gA e.dst).toNat).2 = true
           then r else r ++ [e.id])
          (if (union_set gA (getIndex gA e.src).toNat (getIndex gA e.dst).toNat).2 = true
           then c + e.weight else c)
          hv2 huag hucA hucB hurg hS2
        rw [← hur, ihres]
      · rw [if_neg hab, if_neg hab]
        simp only [Bool.false_eq_true, if_false]
        rw [ih gA gB m (r ++ [e.id]) c hv hag hcA hcB hrg hS]

theorem make_set_agree (gA gB : Graph) (hv : gA.vertices = gB.vertices)
    (hnum : gA.numVertices = gB.numVertices) :
    agreeP (regIdx gA) (make_set gA).parent (make_set gB).parent ∧
    closedS (regIdx gA) (make_set gA).parent ∧
    closedS (regIdx gA) (make_set gB).parent ∧
    agreeR (regIdx gA) (make_set gA).rnk (make_set gB).rnk := by
  have hregB : ∀ i, regIdx gA i → ∃ kv ∈ gB.vertices, kv.2.toNat = i := by
    intro i hi
    obtain ⟨kv, hkv, heq⟩ := hi
    exact ⟨kv, hv ▸ hkv, heq⟩
  refine ⟨⟨?_, ?_⟩, ?_, ?_, ?_, ?_⟩
  · rw [make_set_parent_length, make_set_parent_length, hnum]
  · intro i hi
    have h1 := make_set_pstep_reg gA i hi
    have h2 := make_set_pstep_reg gB i (hregB i hi)
    unfold pstep at h1 h2
    rw [h1, h2]
  · intro i hi
    have h1 := make_set_pstep_reg gA i hi
    unfold pstep at h1
    rw [h1]
    exact hi
  · intro i hi
    have h2 := make_set_pstep_reg gB i (hregB i hi)
    unfold pstep at h2
    rw [h2]
    exact hi
  · rw [make_set_rnk_length, make_set_rnk_length, hnum]
  · intro i hi
    rw [make_set_rnk_reg gA i hi, make_set_rnk_reg gB i (hregB i hi)]

theorem mst_agree (gA gB : Graph) (hv : gA.vertices = gB.vertices)
    (hnum : gA.numVertices = gB.numVertices)
    (hedges : sortList gA.edges = sortList gB.edges) :
    (mst gA).2 = (mst gB).2 ∧ (mst_steps gA).2 = (mst_steps gB).2 := by
  have hv2 : (make_set (sort gA)).vertices = (make_set (sort gB)).vertices := by
    rw [make_set_vertices, make_set_vertices, sort_vertices, sort_vertices]
    exact hv
  obtain ⟨hag, hcA, hcB, hrg⟩ := make_set_agree (sort gA) (sort gB)
    (by rw [sort_vertices, sort_vertices]; exact hv)
    (by rw [sort_numVertices, sort_numVertices]; exact hnum)
  have hS : ∀ nm, 0 ≤ getIndex (make_set (sort gA)) nm →
      regIdx (sort gA) ((getIndex (make_set (sort gA)) nm).toNat) := by
    intro nm hge
    obtain ⟨kv, hkv, hval⟩ := getIndex_mem (make_set (sort gA)) nm hge
    rw [make_set_vertices] at hkv
    exact ⟨kv, hkv, by rw [hval]⟩
  have heg : (make_set (sort gB)).edges = (make_set (sort gA)).edges := by
    rw [make_set_edges, make_set_edges, sort_edges, sort_edges]
    exact hedges.symm
  constructor
  · show (mstLoop (make_set (sort gA)) (make_set (sort gA)).edges 0).2
      = (mstLoop (make_set (sort gB)) (make_set (sort gB)).edges 0).2
    rw [heg]
    exact mstLoop_agree (regIdx (sort gA)) (make_set (sort gA)).edges
      (make_set (sort gA)) (make_set (sort gB)) 0 hv2 hag hcA hcB hrg hS
  · show (traceLoop (make_set (sort gA)) (make_set (sort gA)).edges [] [] 0).2
      = (traceLoop (make_set (sort gB)) (make_set (sort gB)).edges [] [] 0).2
    rw [heg]
    exact traceLoop_agree (regIdx (sort gA)) (make_set (sort gA)).edges
      (make_set (sort gA)) (make_set (sort gB)) [] [] 0 hv2 hag hcA hcB hrg hS

theorem mergeF_strict : ∀ (f : Nat) (v1 v2 : List Edge), v1.length + v2.length ≤ f →
    List.Pairwise (fun a b : Edge => a.weight < b.weight) (v1 ++ v2) →
    mergeF f v1 v2 = v1 ++ v2 := by
  intro f
  induction f with
  | zero =>
      intro v1 v2 h _
      have h1 : v1 = [] := List.length_eq_zero.mp (by omega)
      have h2 : v2 = [] := List.length_eq_zero.mp (by omega)
      subst h1; subst h2
      rfl
  | succ f ih =>
      intro v1 v2 h hp
      match v1, v2 with
      | [], v2 => simp [mergeF]
      | e1 :: t1, [] => simp [mergeF]
      | e1 :: t1, e2 :: t2 =>
          rw [List.cons_append, List.pairwise_cons] at hp
          have hlt : e1.weight < e2.weight := hp.1 e2 (by simp)
          simp only [mergeF, if_pos hlt]
          rw [ih t1 (e2 :: t2) (by simp at h ⊢; omega) hp.2]
          rfl

theorem sortF_id : ∀ (f : Nat) (v : List Edge) (low hi : Nat),
    low ≤ hi → hi < v.length → hi + 1 - low ≤ f →
    List.Pairwise (fun a b : Edge => a.weight < b.weight) (extract v low hi) →
    sortF f v low hi = extract v low hi := by
  intro f
  induction f with
  | zero => intro v low hi h1 h2 h3 _; omega
  | succ f ih =>
      intro v low hi h1 h2 h3 hp
      by_cases heq : low = hi
      · subst heq
        rw [extract_single v low h2]
        simp [sortF]
      · have hlt : low < hi := by omega
        have hnlt : ¬ hi < low := by omega
        simp only [sortF, if_neg heq, if_neg hnlt]
        have hsplit := extract_split v low ((low + hi) / 2) hi (by omega) (by omega)
        rw [hsplit] at hp
        have hp1 := (List.pairwise_append.mp hp).1
        have hp2 := (List.pairwise_append.mp hp).2.1
        rw [ih v low ((low + hi) / 2) (by omega) (by omega) (by omega) hp1,
            ih v ((low + hi) / 2 + 1) hi (by omega) h2 (by omega) hp2]
        unfold mergeEdges
        rw [mergeF_strict _ _ _ le_rfl hp, ← hsplit]

theorem sortList_id (l : List Edge)
    (h : List.Pairwise (fun a b : Edge => a.weight < b.weight) l) : sortList l = l := by
  by_cases hne : l = []
  · subst hne; rfl
  · have hpos : 0 < l.length := List.length_pos.mpr hne
    unfold sortList
    rw [if_neg (by simpa [List.isEmpty_iff] using hne)]
    unfold sortEdges
    rw [sortF_id (l.length - 1 + 1 - 0) l 0 (l.length - 1) (by omega) (by omega) le_rfl
        (by rw [extract_full l hne]; exact h), extract_full l hne]

theorem sortList_strict (l : List Edge)
    (hne : l.Pairwise (fun a b : Edge => a.weight ≠ b.weight)) :
    (sortList l).Pairwise (fun a b : Edge => a.weight < b.weight) := by
  have hs := sortList_sorted l
  have hperm := sortList_perm l
  have hne2 : (sortList l).Pairwise (fun a b : Edge => a.weight ≠ b.weight) :=
    (hperm.pairwise_iff (fun h => Ne.symm h)).mpr hne
  exact (hs.and hne2).imp (fun h => lt_of_le_of_ne h.1 h.2)

theorem mst_state_fields (g : Graph) :
    (mst g).1.vertices = g.vertices ∧ (mst g).1.numVertices = g.numVertices ∧
    (mst g).1.edges = sortList g.edges := by
  have h0 : (mst g).1 = (mstLoop (make_set (sort g)) (make_set (sort g)).edges 0).1 := rfl
  refine ⟨?_, ?_, ?_⟩
  · rw [h0, mstLoop_vertices, make_set_vertices, sort_vertices]
  · rw [h0, mstLoop_numVertices, make_set_numVertices, sort_numVertices]
  · rw [h0, mstLoop_edges, make_set_edges, sort_edges]

theorem mst_steps_state (g : Graph) : (mst_steps g).1 = (mst g).1 :=
  (traceLoop_mstLoop (make_set (sort g)).edges (make_set (sort g)) [] [] 0).1

theorem mst_steps_json_congr (h g : Graph) (he : (mst_steps h).2 = (mst_steps g).2) :
    (mst_steps_json h).2 = (mst_steps_json g).2 := by
  unfold mst_steps_json
  dsimp only
  rw [show (mst_steps h).2.1 = (mst_steps g).2.1 from congrArg Prod.fst he,
      show (mst_steps h).2.2 = (mst_steps g).2.2 from congrArg Prod.snd he]

/-- Claim C3 (amended): on an engine whose edges have pairwise distinct
weights, repeated invocation of `mst` and of `mst_steps_json` on the same
(mutated) engine returns identical results every time.  (With equal-weight
edges this FAILS — see the counterexample — because `sort()` overwrites
`edges` and the merge is anti-stable on ties, so each call flips the order
of tied edges.) -/
theorem C3_theorem (g : Graph)
    (hw : g.edges.Pairwise (fun a b : Edge => a.weight ≠ b.weight)) (k : Nat) :
    (mstIter g k).2 = (mst g).2 ∧ (jsonIter g k).2 = (mst_steps_json g).2 := by
  have hstrict := sortList_strict g.edges hw
  have hidem : sortList (sortList g.edges) = sortList g.edges := sortList_id _ hstrict
  have hmain : ∀ k, ((mstIter g k).1.vertices = g.vertices ∧
      (mstIter g k).1.numVertices = g.numVertices ∧
      (mstIter g k).1.edges = sortList g.edges) ∧ (mstIter g k).2 = (mst g).2 := by
    intro k
    induction k with
    | zero => exact ⟨mst_state_fields g, rfl⟩
    | succ k ih =>
        obtain ⟨⟨hv, hn, he⟩, _⟩ := ih
        have hedges : sortList (mstIter g k).1.edges = sortList g.edges := by
          rw [he, hidem]
        have hag := mst_agree (mstIter g k).1 g hv hn hedges
        obtain ⟨h1, h2, h3⟩ := mst_state_fields (mstIter g k).1
        refine ⟨⟨?_, ?_, ?_⟩, hag.1⟩
        · show (mst (mstIter g k).1).1.vertices = g.vertices
          rw [h1, hv]
        · show (mst (mstIter g k).1).1.numVertices = g.numVertices
          rw [h2, hn]
        · show (mst (mstIter g k).1).1.edges = sortList g.edges
          rw [h3, hedges]
  have hjfields : ∀ h2 : Graph, (mst_steps_json h2).1 = (mst h2).1 := by
    intro h2
    show (mst_steps h2).1 = (mst h2).1
    exact mst_steps_state h2
  have hjson : ∀ k, ((jsonIter g k).1.vertices = g.vertices ∧
      (jsonIter g k).1.numVertices = g.numVertices ∧
      (jsonIter g k).1.edges = sortList g.edges) ∧
      (jsonIter g k).2 = (mst_steps_json g).2 := by
    intro k
    induction k with
    | zero =>
        obtain ⟨h1, h2, h3⟩ := mst_state_fields g
        have hj := hjfields g
        exact ⟨⟨by rw [show (jsonIter g 0).1 = (mst g).1 from hj, h1],
                by rw [show (jsonIter g 0).1 = (mst g).1 from hj, h2],
                by rw [show (jsonIter g 0).1 = (mst g).1 from hj, h3]⟩, rfl⟩
    | succ k ih =>
        obtain ⟨⟨hv, hn, he⟩, _⟩ := ih
        have hedges : sortList (jsonIter g k).1.edges = sortList g.edges := by
          rw [he, hidem]
        have hag := mst_agree (jsonIter g k).1 g hv hn hedges
        obtain ⟨h1, h2, h3⟩ := mst_state_fields (jsonIter g k).1
        have hj := hjfields (jsonIter g k).1
        refine ⟨⟨?_, ?_, ?_⟩, ?_⟩
        · show (mst_steps_json (jsonIter g k).1).1.vertices = g.vertices
          rw [hj, h1, hv]
        · show (mst_steps_json (jsonIter g k).1).1.numVertices = g.numVertices
          rw [hj, h2, hn]
        · show (mst_steps_json (jsonIter g k).1).1.edges = sortList g.edges
          rw [hj, h3, hedges]
        · show (mst_steps_json (jsonIter g k).1).2 = (mst_steps_json g).2
          exact mst_steps_json_congr (jsonIter g k).1 g hag.2
  exact ⟨(hmain k).2, (hjson k).2⟩

/-- Claim C3 (amended) witness: on a distinct-weight engine the second
invocation matches the first for both entry points. -/
theorem C3_witness :
    (mstIter ⟨3, 2, [], [], [("X", 0), ("Y", 1), ("Z", 2)],
        [⟨"eA", 4, "X", "Y"⟩, ⟨"eB", 5, "Y", "Z"⟩]⟩ 1).2 =
      (mst ⟨3, 2, [], [], [("X", 0), ("Y", 1), ("Z", 2)],
        [⟨"eA", 4, "X", "Y"⟩, ⟨"eB", 5, "Y", "Z"⟩]⟩).2 ∧
    (jsonIter ⟨3, 2, [], [], [("X", 0), ("Y", 1), ("Z", 2)],
        [⟨"eA", 4, "X", "Y"⟩, ⟨"eB", 5, "Y", "Z"⟩]⟩ 1).2 =
      (mst_steps_json ⟨3, 2, [], [], [("X", 0), ("Y", 1), ("Z", 2)],
        [⟨"eA", 4, "X", "Y"⟩, ⟨"eB", 5, "Y", "Z"⟩]⟩).2 :=
  C3_theorem ⟨3, 2, [], [], [("X", 0), ("Y", 1), ("Z", 2)],
      [⟨"eA", 4, "X", "Y"⟩, ⟨"eB", 5, "Y", "Z"⟩]⟩ (by decide) 1


theorem traceLoop_len (es : List Edge) : ∀ (g : Graph) (m r : List String) (c : Int),
    (traceLoop g es m r c).2.1.length = es.length := by
  induction es with
  | nil => intro g m r c; rfl
  | cons e rest ih =>
      intro g m r c
      unfold traceLoop
      dsimp only
      simp [ih]

theorem traceLoop_steps (es : List Edge) : ∀ (g : Graph) (m r : List String) (c : Int)
    (k : Nat), k < es.length →
    ((traceLoop g es m r c).2.1.getD k default).consideredEdgeId = (es.getD k default).id ∧
    ((traceLoop g es m r c).2.1.getD k default).mstEdgeIds.length +
      ((traceLoop g es m r c).2.1.getD k default).rejectedEdgeIds.length
        = m.length + r.length + k + 1 ∧
    ((getIndex g (es.getD k default).src < 0 ∨ getIndex g (es.getD k default).dst < 0) →
      ((traceLoop g es m r c).2.1.getD k default).action = "reject" ∧
      ((traceLoop g es m r c).2.1.getD k default).reason = "cycle" ∧
      (es.getD k default).id ∈
        ((traceLoop g es m r c).2.1.getD k default).rejectedEdgeIds) := by
  induction es with
  | nil => intro g m r c k hk; simp at hk
  | cons e rest ih =>
      intro g m r c k hk
      unfold traceLoop
      dsimp only
      match k with
      | 0 =>
          simp only [List.getD_cons_zero]
          by_cases hab : 0 ≤ getIndex g e.src ∧ 0 ≤ getIndex g e.dst
          · rw [if_pos hab]
            refine ⟨by simp, ?_, ?_⟩
            · cases hu : (union_set g (getIndex g e.src).toNat (getIndex g e.dst).toNat).2 <;>
                simp [hu, List.length_append] <;> try omega
            · intro hbad
              exact absurd hab (by omega)
          · rw [if_neg hab]
            refine ⟨by simp, ?_, ?_⟩
            · simp [List.length_append]
              try omega
            · intro _
              refine ⟨by simp, by simp, by simp⟩
      | k + 1 =>
          simp only [List.getD_cons_succ]
          have hrest : k < rest.length := by
            simp at hk
            omega
          set u := if 0 ≤ getIndex g e.src ∧ 0 ≤ getIndex g e.dst then
            union_set g (getIndex g e.src).toNat (getIndex g e.dst).toNat else (g, false) with hu
          have hv : u.1.vertices = g.vertices := loopStep_vertices g _ _
          have hgi : ∀ nm, getIndex u.1 nm = getIndex g nm :=
            getIndex_congr u.1 g hv
          obtain ⟨ha, hb, hc⟩ := ih u.1 (if u.2 then m ++ [e.id] else m)
            (if u.2 then r else r ++ [e.id]) (if u.2 then c + e.weight else c) k hrest
          refine ⟨ha, ?_, ?_⟩
          · rw [hb]
            cases hu2 : u.2 <;> simp [hu2, List.length_append] <;> omega
          · intro hbad
            refine hc ?_
            rwa [hgi, hgi]

theorem traceLoop_chain (es : List Edge) : ∀ (g : Graph) (m r : List String) (c : Int)
    (k : Nat), k < es.length →
    (((traceLoop g es m r c).2.1.getD k default).mstEdgeIds =
        (if k = 0 then m
         else ((traceLoop g es m r c).2.1.getD (k - 1) default).mstEdgeIds) ++
          [((traceLoop g es m r c).2.1.getD k default).consideredEdgeId] ∧
     ((traceLoop g es m r c).2.1.getD k default).rejectedEdgeIds =
        (if k = 0 then r
         else ((traceLoop g es m r c).2.1.getD (k - 1) default).rejectedEdgeIds)) ∨
    (((traceLoop g es m r c).2.1.getD k default).mstEdgeIds =
        (if k = 0 then m
         else ((traceLoop g es m r c).2.1.getD (k - 1) default).mstEdgeIds) ∧
     ((traceLoop g es m r c).2.1.getD k default).rejectedEdgeIds =
        (if k = 0 then r
         else ((traceLoop g es m r c).2.1.getD (k - 1) default).rejectedEdgeIds) ++
          [((traceLoop g es m r c).2.1.getD k default).consideredEdgeId]) := by
  induction es with
  | nil => intro g m r c k hk; simp at hk
  | cons e rest ih =>
      intro g m r c k hk
      unfold traceLoop
      dsimp only
      match k with
      | 0 =>
          simp only [List.getD_cons_zero, if_pos rfl]
          cases hu2 : (if 0 ≤ getIndex g e.src ∧ 0 ≤ getIndex g e.dst then
              union_set g (getIndex g e.src).toNat (getIndex g e.dst).toNat else (g, false)).2
          · right
            simp [hu2]
          · left
            simp [hu2]
      | k + 1 =>
          have hk0 : k + 1 - 1 = k := by omega
          simp only [List.getD_cons_succ, Nat.succ_ne_zero, if_neg (Nat.succ_ne_zero k), hk0]
          have hrest : k < rest.length := by
            simp at hk
            omega
          set u := if 0 ≤ getIndex g e.src ∧ 0 ≤ getIndex g e.dst then
            union_set g (getIndex g e.src).toNat (getIndex g e.dst).toNat else (g, false) with hu
          have hch := ih u.1 (if u.2 then m ++ [e.id] else m)
            (if u.2 then r else r ++ [e.id]) (if u.2 then c + e.weight else c) k hrest
          match k with
          | 0 =>
              simpa only [List.getD_cons_zero, if_pos rfl] using hch
          | k + 1 =>
              have hk1 : k + 1 - 1 = k := by omega
              simpa only [List.getD_cons_succ, if_neg (Nat.succ_ne_zero k), hk1] using hch

/-- Claim C5: the total cost produced by the classic computation `mst`
equals the `mstWeight` of the traced computation: the structured totals
agree, and the JSON string renders exactly that cost as `mstWeight`. -/
theorem C5_theorem (g : Graph) :
    (mst g).2.2 = (mst_steps g).2.2 ∧
    (mst_steps_json g).2 =
      "\x7b\"steps\":[" ++ String.intercalate "," ((mst_steps g).2.1.map renderStep) ++
      "],\"mstWeight\":" ++ toString ((mst g).2.2) ++ "\x7d" := by
  have h := traceLoop_mstLoop (make_set (sort g)).edges (make_set (sort g)) [] [] 0
  constructor
  · exact h.2.symm
  · unfold mst_steps_json
    dsimp only
    have h2 : (mst g).2.2 = (mst_steps g).2.2 := h.2.symm
    rw [h2]

/-- Claim C8: in every trace, the k-th emitted step (0-indexed here, so the
1-indexed count is `k + 1`) satisfies `|mstEdgeIds| + |rejectedEdgeIds| =
k + 1`, and its lists are the previous step's lists (empty lists for the
first step) extended by exactly the considered edge's id on one side. -/
theorem C8_theorem (g : Graph) (k : Nat) (hk : k < (mst_steps g).2.1.length) :
    ((mst_steps g).2.1.getD k default).mstEdgeIds.length +
      ((mst_steps g).2.1.getD k default).rejectedEdgeIds.length = k + 1 ∧
    ((((mst_steps g).2.1.getD k default).mstEdgeIds =
        (if k = 0 then []
         else ((mst_steps g).2.1.getD (k - 1) default).mstEdgeIds) ++
          [((mst_steps g).2.1.getD k default).consideredEdgeId] ∧
      ((mst_steps g).2.1.getD k default).rejectedEdgeIds =
        (if k = 0 then []
         else ((mst_steps g).2.1.getD (k - 1) default).rejectedEdgeIds)) ∨
     (((mst_steps g).2.1.getD k default).mstEdgeIds =
        (if k = 0 then []
         else ((mst_steps g).2.1.getD (k - 1) default).mstEdgeIds) ∧
      ((mst_steps g).2.1.getD k default).rejectedEdgeIds =
        (if k = 0 then []
         else ((mst_steps g).2.1.getD (k - 1) default).rejectedEdgeIds) ++
          [((mst_steps g).2.1.getD k default).consideredEdgeId])) := by
  have hlen : (mst_steps g).2.1.length = (make_set (sort g)).edges.length :=
    traceLoop_len _ _ _ _ _
  have hke : k < (make_set (sort g)).edges.length := by rw [← hlen]; exact hk
  have hs := traceLoop_steps (make_set (sort g)).edges (make_set (sort g)) [] [] 0 k hke
  have hc := traceLoop_chain (make_set (sort g)).edges (make_set (sort g)) [] [] 0 k hke
  exact ⟨by simpa using hs.2.1, hc⟩

/-- Claim C8 witness: `C8_theorem` applied to the three-edge example graph
of spec §8 at the third step (`k = 2`). -/
theorem C8_witness :
    ((mst_steps ⟨3, 3, [], [], [("A", 0), ("B", 1), ("C", 2)],
        [⟨"e1", 1, "A", "B"⟩, ⟨"e2", 2, "B", "C"⟩, ⟨"e3", 3, "A", "C"⟩]⟩).2.1.getD 2
          default).mstEdgeIds.length +
      ((mst_steps ⟨3, 3, [], [], [("A", 0), ("B", 1), ("C", 2)],
        [⟨"e1", 1, "A", "B"⟩, ⟨"e2", 2, "B", "C"⟩, ⟨"e3", 3, "A", "C"⟩]⟩).2.1.getD 2
          default).rejectedEdgeIds.length = 2 + 1 :=
  (C8_theorem ⟨3, 3, [], [], [("A", 0), ("B", 1), ("C", 2)],
      [⟨"e1", 1, "A", "B"⟩, ⟨"e2", 2, "B", "C"⟩, ⟨"e3", 3, "A", "C"⟩]⟩ 2 (by decide)).1

/-- Claim C1 (amended): an edge whose `src` or `dst` name is not registered
is NOT skipped by the traced computation: the trace has exactly one step
per (sorted) edge, the k-th step considers the k-th sorted edge, and when
that edge's endpoints do not both resolve its step has action `"reject"`,
reason `"cycle"`, and the edge's id is appended to `rejectedEdgeIds` (only
the classic `mst` excludes such edges from its outputs). -/
theorem C1_theorem (g : Graph) (k : Nat) (hk : k < (mst_steps g).2.1.length) :
    (mst_steps g).2.1.length = (sort g).edges.length ∧
    ((mst_steps g).2.1.getD k default).consideredEdgeId =
      ((sort g).edges.getD k default).id ∧
    ((getIndex g ((sort g).edges.getD k default).src < 0 ∨
      getIndex g ((sort g).edges.getD k default).dst < 0) →
      ((mst_steps g).2.1.getD k default).action = "reject" ∧
      ((mst_steps g).2.1.getD k default).reason = "cycle" ∧
      ((sort g).edges.getD k default).id ∈
        ((mst_steps g).2.1.getD k default).rejectedEdgeIds) := by
  have hlen : (mst_steps g).2.1.length = (make_set (sort g)).edges.length :=
    traceLoop_len _ _ _ _ _
  have hke : k < (make_set (sort g)).edges.length := by rw [← hlen]; exact hk
  have hs := traceLoop_steps (make_set (sort g)).edges (make_set (sort g)) [] [] 0 k hke
  have hgi : ∀ nm, getIndex (make_set (sort g)) nm = getIndex g nm :=
    getIndex_congr _ g (by rw [make_set_vertices, sort_vertices])
  refine ⟨hlen, hs.1, ?_⟩
  intro hbad
  refine hs.2.2 ?_
  have hedges : (make_set (sort g)).edges = (sort g).edges := rfl
  simp only [hedges, hgi]
  exact hbad

/-- Claim C1 witness: `C1_theorem` applied to a graph whose second sorted
edge references the unregistered vertex `"Q"`. -/
theorem C1_witness :
    (mst_steps ⟨2, 2, [], [], [("A", 0), ("B", 1)],
        [⟨"e1", 1, "A", "B"⟩, ⟨"e2", 2, "A", "Q"⟩]⟩).2.1.length =
      (sort ⟨2, 2, [], [], [("A", 0), ("B", 1)],
        [⟨"e1", 1, "A", "B"⟩, ⟨"e2", 2, "A", "Q"⟩]⟩).edges.length :=
  (C1_theorem ⟨2, 2, [], [], [("A", 0), ("B", 1)],
      [⟨"e1", 1, "A", "B"⟩, ⟨"e2", 2, "A", "Q"⟩]⟩ 1 (by decide)).1

/-- Claim C4 witness: a concrete application of `C4_theorem`. -/
theorem C4_witness :
    addVertex (addVertex (Graph.new 2 0) "A" 0) "A" 1 = addVertex (Graph.new 2 0) "A" 0 ∧
    getIndex (addVertex (addVertex (Graph.new 2 0) "A" 0) "A" 1) "A" = 0 :=
  C4_theorem (Graph.new 2 0) "A" 0 1 (by intro kv hkv; simp [Graph.new] at hkv)

/-! ### Counterexamples for claims C1, C2, C3 -/

/-- Claim C1 counterexample: on a graph where edge `"e2"` references the
unregistered vertex name `"Q"`, the traced computation still emits a trace
step for that edge (the step count equals the edge count, 2) and `"e2"`
appears in that step's `rejectedEdgeIds` — contradicting the claimed skip
policy. -/
theorem C1_counterexample :
    getIndex ⟨2, 2, [], [], [("A", 0), ("B", 1)],
        [⟨"e1", 1, "A", "B"⟩, ⟨"e2", 2, "A", "Q"⟩]⟩ "Q" = -1 ∧
    (mst_steps ⟨2, 2, [], [], [("A", 0), ("B", 1)],
        [⟨"e1", 1, "A", "B"⟩, ⟨"e2", 2, "A", "Q"⟩]⟩).2.1.length = 2 ∧
    "e2" ∈ ((mst_steps ⟨2, 2, [], [], [("A", 0), ("B", 1)],
        [⟨"e1", 1, "A", "B"⟩, ⟨"e2", 2, "A", "Q"⟩]⟩).2.1.getD 1 default).rejectedEdgeIds := by
  refine ⟨by decide, by decide, by decide⟩

/-- Claim C2 counterexample: for the two equal-weight edges `eA`, `eB` in
input order `[eA, eB]`, the sorted sequence is `[eB, eA]` — the relative
order of equal-weight edges is NOT preserved (the merge takes the right
half's head on equality). -/
theorem C2_counterexample :
    sortList [⟨"eA", 5, "X", "Y"⟩, ⟨"eB", 5, "Y", "Z"⟩] =
      [⟨"eB", 5, "Y", "Z"⟩, ⟨"eA", 5, "X", "Y"⟩] ∧
    ¬ ((sortList [⟨"eA", 5, "X", "Y"⟩, ⟨"eB", 5, "Y", "Z"⟩]).filter
          (fun e => e.weight == 5) =
       ([⟨"eA", 5, "X", "Y"⟩, ⟨"eB", 5, "Y", "Z"⟩] : List Edge).filter
          (fun e => e.weight == 5)) := by
  refine ⟨by decide, by decide⟩

/-- Claim C3 counterexample: on an engine with two equal-weight edges, the
second invocation of `mst` returns a different accepted-edge sequence than
the first, and the second invocation of `mst_steps_json` returns a
different JSON string — repeated calls are NOT bit-identical, because
`sort()` overwrites `edges` and the merge is anti-stable on ties. -/
theorem C3_counterexample :
    (mst (mst ⟨3, 2, [], [], [("X", 0), ("Y", 1), ("Z", 2)],
        [⟨"eA", 5, "X", "Y"⟩, ⟨"eB", 5, "Y", "Z"⟩]⟩).1).2 ≠
      (mst ⟨3, 2, [], [], [("X", 0), ("Y", 1), ("Z", 2)],
        [⟨"eA", 5, "X", "Y"⟩, ⟨"eB", 5, "Y", "Z"⟩]⟩).2 ∧
    (mst_steps_json (mst_steps_json ⟨3, 2, [], [], [("X", 0), ("Y", 1), ("Z", 2)],
        [⟨"eA", 5, "X", "Y"⟩, ⟨"eB", 5, "Y", "Z"⟩]⟩).1).2 ≠
      (mst_steps_json ⟨3, 2, [], [], [("X", 0), ("Y", 1), ("Z", 2)],
        [⟨"eA", 5, "X", "Y"⟩, ⟨"eB", 5, "Y", "Z"⟩]⟩).2 := by
  refine ⟨by decide, by decide⟩

/-- Claim C10 witness at a concrete engine. -/
theorem C10_witness :
    (Graph.new 3 0).edges = [] ∧
    (mst (Graph.new 3 0)).2 = ([], 0) ∧
    (mst_steps_json (Graph.new 3 0)).2 = "\x7b\"steps\":[],\"mstWeight\":0\x7d" ∧
    sort (Graph.new 3 0) = Graph.new 3 0 := by
  refine ⟨rfl, ?_⟩
  have h := C10_theorem (Graph.new 3 0) rfl
  exact ⟨h.1, h.2.1, h.2.2⟩

end GraphMST
